import Mathlib

/-
Verification of the track-identity reconciliation and event-counting core:
`id_stitcher.py` (TrackIDStitcher) and `counter.py` (LineCrossingCounter).

Scalars that the code holds as Python floats are modelled as rationals (ℚ);
frame numbers and track ids as integers (ℤ).  Python dicts are modelled as
insertion-ordered association lists, and the mutable heap of Track Record
dicts is modelled as an explicit store indexed by naturals, so that the
in-place mutation done by `_apply_id_mapping` is observable.
-/

/- Batteries marks the `Rat` arithmetic `@[irreducible]`, which blocks `decide`
on concrete rational arithmetic; the kernel itself ignores reducibility, so
restoring the default status only re-enables evaluation. -/
set_option allowUnsafeReducibility true in
attribute [semireducible] Rat.add Rat.sub Rat.mul Rat.div Rat.neg Rat.inv Rat.blt Rat.normalize

namespace PeopleCounting

/-- A 2D point; the code stores centers and line endpoints as float pairs. -/
structure Pos where
  x : ℚ
  y : ℚ
deriving DecidableEq, Repr

instance : Inhabited Pos := ⟨⟨0, 0⟩⟩

/-- A bounding box `(x1, y1, x2, y2)` in pixel coordinates. -/
structure BBox where
  x1 : ℚ
  y1 : ℚ
  x2 : ℚ
  y2 : ℚ
deriving DecidableEq, Repr

instance : Inhabited BBox := ⟨⟨0, 0, 0, 0⟩⟩

/-- Python dict assignment `m[k] = v`: overwrite the binding in place if the
key is present, otherwise append it at the end (Python dicts keep insertion
order). -/
def dictInsert {β : Type} (m : List (ℤ × β)) (k : ℤ) (v : β) : List (ℤ × β) :=
  match m with
  | [] => [(k, v)]
  | (ka, va) :: rest => if ka = k then (k, v) :: rest else (ka, va) :: dictInsert rest k v

/-- Python `defaultdict` read-modify-write `m[k] = f(m[k])`: a missing key is
first created with the default value. -/
def dictUpd {β : Type} (dflt : β) (f : β → β) (k : ℤ) : List (ℤ × β) → List (ℤ × β)
  | [] => [(k, f dflt)]
  | (ka, va) :: rest => if ka = k then (k, f va) :: rest else (ka, va) :: dictUpd dflt f k rest

/-- Decidable equality for `Except`, used to evaluate the embedded functions on
concrete inputs. -/
instance {ε α : Type} [DecidableEq ε] [DecidableEq α] : DecidableEq (Except ε α) := by
  intro a b
  cases a with
  | error e1 =>
    cases b with
    | error e2 =>
      exact decidable_of_iff (e1 = e2)
        ⟨fun h => by rw [h], fun h => by injection h⟩
    | ok v2 => exact isFalse fun h => Except.noConfusion h
  | ok v1 =>
    cases b with
    | error e2 => exact isFalse fun h => Except.noConfusion h
    | ok v2 =>
      exact decidable_of_iff (v1 = v2)
        ⟨fun h => by rw [h], fun h => by injection h⟩

section DictLemmas

variable {β : Type}

theorem dictInsert_lookup_self (m : List (ℤ × β)) (k : ℤ) (v : β) :
    (dictInsert m k v).lookup k = some v := by
  induction m with
  | nil => simp [dictInsert, List.lookup]
  | cons hd tl ih =>
    obtain ⟨ka, va⟩ := hd
    by_cases h : ka = k
    · simp [dictInsert, h, List.lookup]
    · have hb : (k == ka) = false := beq_eq_false_iff_ne.mpr fun hh => h hh.symm
      simp [dictInsert, h, List.lookup, hb, ih]

theorem dictInsert_lookup_other (m : List (ℤ × β)) (k j : ℤ) (v : β) (hjk : j ≠ k) :
    (dictInsert m k v).lookup j = m.lookup j := by
  induction m with
  | nil =>
    have hb : (j == k) = false := beq_eq_false_iff_ne.mpr hjk
    simp [dictInsert, List.lookup, hb]
  | cons hd tl ih =>
    obtain ⟨ka, va⟩ := hd
    by_cases h : ka = k
    · subst h
      have hb : (j == ka) = false := beq_eq_false_iff_ne.mpr hjk
      simp [dictInsert, List.lookup, hb]
    · simp [dictInsert, h, List.lookup, ih]

theorem dictInsert_mem (m : List (ℤ × β)) (k : ℤ) (v : β) (kv : ℤ × β) :
    kv ∈ dictInsert m k v → kv = (k, v) ∨ kv ∈ m := by
  induction m with
  | nil => intro h; simpa [dictInsert] using h
  | cons hd tl ih =>
    obtain ⟨ka, va⟩ := hd
    intro h
    by_cases hk : ka = k
    · simp only [dictInsert, if_pos hk] at h
      rcases List.mem_cons.mp h with h1 | h1
      · exact Or.inl h1
      · exact Or.inr (List.mem_cons.mpr (Or.inr h1))
    · simp only [dictInsert, if_neg hk] at h
      rcases List.mem_cons.mp h with h1 | h1
      · exact Or.inr (List.mem_cons.mpr (Or.inl h1))
      · rcases ih h1 with h2 | h2
        · exact Or.inl h2
        · exact Or.inr (List.mem_cons.mpr (Or.inr h2))

theorem dictUpd_lookup_self (dflt : β) (f : β → β) (k : ℤ) (m : List (ℤ × β)) :
    (dictUpd dflt f k m).lookup k = some (f ((m.lookup k).getD dflt)) := by
  induction m with
  | nil => simp [dictUpd, List.lookup]
  | cons hd tl ih =>
    obtain ⟨ka, va⟩ := hd
    by_cases h : ka = k
    · subst h
      simp [dictUpd, List.lookup]
    · have hb : (k == ka) = false := beq_eq_false_iff_ne.mpr fun hh => h hh.symm
      simp [dictUpd, h, List.lookup, hb, ih]

theorem dictUpd_lookup_other (dflt : β) (f : β → β) (k j : ℤ) (m : List (ℤ × β)) (hjk : j ≠ k) :
    (dictUpd dflt f k m).lookup j = m.lookup j := by
  induction m with
  | nil =>
    have hb : (j == k) = false := beq_eq_false_iff_ne.mpr hjk
    simp [dictUpd, List.lookup, hb]
  | cons hd tl ih =>
    obtain ⟨ka, va⟩ := hd
    by_cases h : ka = k
    · subst h
      have hb : (j == ka) = false := beq_eq_false_iff_ne.mpr hjk
      simp [dictUpd, List.lookup, hb]
    · simp [dictUpd, h, List.lookup, ih]

end DictLemmas

/-- Crossing direction, the string `'IN'` / `'OUT'` of the code. -/
inductive Direction where
  | IN : Direction
  | OUT : Direction
deriving DecidableEq, Repr

/-- A crossing event as recorded in `self.events` by `process_frame`. -/
structure CEvent where
  frame : ℤ
  track_id : ℤ
  direction : Direction
  position : Pos
  count_in : ℕ
  count_out : ℕ
deriving DecidableEq, Repr

instance : Inhabited CEvent := ⟨⟨0, 0, Direction.OUT, ⟨0, 0⟩, 0, 0⟩⟩

/-- The part of a Track Record the counter reads: `track_id` and `center`. -/
structure CTrack where
  track_id : ℤ
  center : Pos
deriving DecidableEq, Repr

/-- Constructor arguments of `LineCrossingCounter`. -/
structure CounterCfg where
  line_start : Pos
  line_end : Pos
  min_frames_between : ℤ
  history_length : ℕ
deriving Repr

/-- The mutable state of a `LineCrossingCounter` instance. -/
structure CounterState where
  track_history : List (ℤ × List (ℤ × Pos))
  last_crossing_frame : List (ℤ × ℤ)
  count_in : ℕ
  count_out : ℕ
  events : List CEvent
deriving DecidableEq, Repr

/-- The state right after `__init__`. -/
def initCounter : CounterState := ⟨[], [], 0, 0, []⟩

/-- Append to a `collections.deque(maxlen=n)`: the oldest entry is evicted from
the front when the deque is full. -/
def dequeAppend {α : Type} (maxlen : ℕ) (h : List α) (x : α) : List α :=
  let h2 := h ++ [x]
  if maxlen < h2.length then h2.drop (h2.length - maxlen) else h2

/-- The orientation test `ccw` nested in `_segments_intersect`:
`(C.y - A.y) * (B.x - A.x) > (B.y - A.y) * (C.x - A.x)`. -/
def ccw (A B C : Pos) : Bool :=
  decide ((C.y - A.y) * (B.x - A.x) > (B.y - A.y) * (C.x - A.x))

/-- Python `_segments_intersect`: does segment `p1`–`p2` cross segment `p3`–`p4`? -/
def segments_intersect (p1 p2 p3 p4 : Pos) : Bool :=
  (ccw p1 p3 p4 != ccw p2 p3 p4) && (ccw p1 p2 p3 != ccw p1 p2 p4)

/-- Python `_get_crossing_direction`: sign of the 2D cross product of the line vector
and the movement vector; `'IN' if cross > 0 else 'OUT'`. -/
def get_crossing_direction (cfg : CounterCfg) (pos1 pos2 : Pos) : Direction :=
  let line_vec : Pos := ⟨cfg.line_end.x - cfg.line_start.x, cfg.line_end.y - cfg.line_start.y⟩
  let movement_vec : Pos := ⟨pos2.x - pos1.x, pos2.y - pos1.y⟩
  let cross := line_vec.x * movement_vec.y - line_vec.y * movement_vec.x
  if 0 < cross then Direction.IN else Direction.OUT

/-- Python `_check_line_crossing`: `none` when the trajectory does not cross the line. -/
def check_line_crossing (cfg : CounterCfg) (pos1 pos2 : Pos) : Option Direction :=
  if segments_intersect pos1 pos2 cfg.line_start cfg.line_end then
    some (get_crossing_direction cfg pos1 pos2)
  else
    none

/-- The body of the `for track in tracks` loop of `process_frame`, threading the
counter state and the `frame_events` accumulator. -/
def process_track (cfg : CounterCfg) (frame_num : ℤ) (st : CounterState) (fe : List CEvent)
    (t : CTrack) : CounterState × List CEvent :=
  let hist := dictUpd [] (fun h => dequeAppend cfg.history_length h (frame_num, t.center))
    t.track_id st.track_history
  let st1 : CounterState := { st with track_history := hist }
  let h := (hist.lookup t.track_id).getD []
  if h.length < 2 then (st1, fe)
  else
    let cooling : Bool :=
      match st1.last_crossing_frame.lookup t.track_id with
      | some last => decide (frame_num - last < cfg.min_frames_between)
      | none => false
    if cooling then (st1, fe)
    else
      let prev_center := (h.getD (h.length - 2) (0, default)).2
      match check_line_crossing cfg prev_center t.center with
      | none => (st1, fe)
      | some dir =>
        let ci := if dir = Direction.IN then st1.count_in + 1 else st1.count_in
        let co := if dir = Direction.OUT then st1.count_out + 1 else st1.count_out
        let ev : CEvent := ⟨frame_num, t.track_id, dir, t.center, ci, co⟩
        ({ st1 with count_in := ci, count_out := co,
                    events := st1.events ++ [ev],
                    last_crossing_frame := dictInsert st1.last_crossing_frame t.track_id frame_num },
         fe ++ [ev])

/-- Python `process_frame`: fold the loop body over the frame's tracks, returning the
new state together with the events emitted for this frame. -/
def process_frame (cfg : CounterCfg) (st : CounterState) (frame_num : ℤ)
    (tracks : List CTrack) : CounterState × List CEvent :=
  tracks.foldl (fun acc t => process_track cfg frame_num acc.1 acc.2 t) (st, [])

/-- A sequence of `process_frame` calls, as the pipeline drives the counter. -/
def run_frames (cfg : CounterCfg) (st : CounterState) : List (ℤ × List CTrack) → CounterState
  | [] => st
  | (f, ts) :: rest => run_frames cfg (process_frame cfg st f ts).1 rest

/-- The record returned by `get_summary`. -/
structure Summary where
  total_in : ℕ
  total_out : ℕ
  net : ℤ
  total_crossings : ℕ
  unique_tracks : ℕ
deriving DecidableEq, Repr

/-- Python `get_summary`: a pure read of the counter state. -/
def get_summary (st : CounterState) : Summary :=
  { total_in := st.count_in
    total_out := st.count_out
    net := (st.count_in : ℤ) - (st.count_out : ℤ)
    total_crossings := st.events.length
    unique_tracks := ((st.events.map (fun e => e.track_id)).dedup).length }

/-- C5: the direction assigned by `_get_crossing_direction` is `IN` exactly when
the signed cross product `line.x*(pos2.y − pos1.y) − line.y*(pos2.x − pos1.x)`
(with `line = line_end − line_start`) is strictly positive, and `OUT` exactly
when that cross product is non-positive, including exactly zero. -/
theorem crossing_direction_sign (cfg : CounterCfg) (pos1 pos2 : Pos) :
    (get_crossing_direction cfg pos1 pos2 = Direction.IN ↔
      0 < (cfg.line_end.x - cfg.line_start.x) * (pos2.y - pos1.y) -
          (cfg.line_end.y - cfg.line_start.y) * (pos2.x - pos1.x)) ∧
    (get_crossing_direction cfg pos1 pos2 = Direction.OUT ↔
      (cfg.line_end.x - cfg.line_start.x) * (pos2.y - pos1.y) -
          (cfg.line_end.y - cfg.line_start.y) * (pos2.x - pos1.x) ≤ 0) := by
  unfold get_crossing_direction
  simp only
  set c := (cfg.line_end.x - cfg.line_start.x) * (pos2.y - pos1.y) -
      (cfg.line_end.y - cfg.line_start.y) * (pos2.x - pos1.x) with hc
  by_cases h : 0 < c
  · simp [h, not_le.mpr h]
  · simp [h, not_lt.mp h]

/-- A Track Record as the stitcher sees it: `track_id`, `center`, `bbox`, plus
the `stitched` key that `_apply_id_mapping` adds (absent on input). -/
structure TrackRec where
  track_id : ℤ
  center : Pos
  bbox : BBox
  stitched : Option Bool
deriving DecidableEq, Repr

instance : Inhabited TrackRec := ⟨⟨0, default, default, none⟩⟩

/-- A Frame Record with its Track Records as plain values (the segment builder
and the statistics only read them). -/
structure Frame where
  frame : ℤ
  tracks : List TrackRec
deriving DecidableEq, Repr

/-- A Frame Record holding references (store indices) to its Track Records,
modelling the aliasing of the shared Python dicts. -/
structure FrameRef where
  frame : ℤ
  tracks : List ℕ
deriving DecidableEq, Repr

/-- Read a referencing Frame Record through the store. -/
def derefFrame (store : List TrackRec) (fr : FrameRef) : Frame :=
  ⟨fr.frame, fr.tracks.map (fun i => store.getD i default)⟩

/-- The per-track segment dict of `_build_track_segments`, with its literal
initial values: `start_frame = float('inf')` (modelled as `⊤`), `end_frame = 0`,
positions and bboxes `None`. -/
structure RawSegment where
  start_frame : WithTop ℤ
  end_frame : ℤ
  start_position : Option Pos
  end_position : Option Pos
  start_bbox : Option BBox
  end_bbox : Option BBox
  frames : List ℤ
deriving DecidableEq, Repr

/-- The `defaultdict` default of `_build_track_segments`. -/
def initRawSegment : RawSegment := ⟨⊤, 0, none, none, none, none, []⟩

/-- The body of the `for track in frame_data['tracks']` loop of
`_build_track_segments`: record the frame, update the start on a strictly
smaller frame number, update the end on a strictly larger one. -/
def updateSeg (frame_num : ℤ) (center : Pos) (bbox : BBox) (seg : RawSegment) : RawSegment :=
  let seg1 := { seg with frames := seg.frames ++ [frame_num] }
  let seg2 :=
    if (frame_num : WithTop ℤ) < seg1.start_frame then
      { seg1 with start_frame := (frame_num : WithTop ℤ), start_position := some center,
                  start_bbox := some bbox }
    else seg1
  if frame_num > seg2.end_frame then
    { seg2 with end_frame := frame_num, end_position := some center, end_bbox := some bbox }
  else seg2

/-- Python `_build_track_segments`: one pass over all Frame Records. -/
def build_track_segments (results : List Frame) : List (ℤ × RawSegment) :=
  results.foldl
    (fun segs fd => fd.tracks.foldl
      (fun segs t => dictUpd initRawSegment (updateSeg fd.frame t.center t.bbox) t.track_id segs)
      segs)
    []

/-- A fully-populated Track Segment. For every id observed in a sequence whose
frame numbers are all ≥ 1, every `RawSegment` field is set and
`RawSegment.extract` below is a lossless reading of the segment dict. -/
structure Segment where
  start_frame : ℤ
  end_frame : ℤ
  start_position : Pos
  end_position : Pos
  start_bbox : BBox
  end_bbox : BBox
deriving DecidableEq, Repr

instance : Inhabited Segment := ⟨⟨0, 0, default, default, default, default⟩⟩

/-- Read the fields of a segment dict whose optional fields are set. -/
def RawSegment.extract (r : RawSegment) : Segment :=
  ⟨r.start_frame.untop' 0, r.end_frame, r.start_position.getD default,
   r.end_position.getD default, r.start_bbox.getD default, r.end_bbox.getD default⟩

/-- Constructor arguments of `TrackIDStitcher`. -/
structure StitchCfg where
  max_frame_gap : ℤ
  position_threshold : ℚ
  size_similarity_threshold : ℚ
deriving Repr

/-- Python `_get_bbox_size`: `(x2 - x1) * (y2 - y1)`. -/
def get_bbox_size (bbox : BBox) : ℚ := (bbox.x2 - bbox.x1) * (bbox.y2 - bbox.y1)

/-- Squared Euclidean distance between two points. -/
def dist2 (p q : Pos) : ℚ := (p.x - q.x) * (p.x - q.x) + (p.y - q.y) * (p.y - q.y)

/-- The comparison `np.linalg.norm(p − q) < thr` stated without square roots:
the norm is non-negative, so it is below `thr` exactly when `thr` is positive
and the squared distance is below `thr * thr`. -/
def dist_lt (p q : Pos) (thr : ℚ) : Prop := 0 < thr ∧ dist2 p q < thr * thr

instance (p q : Pos) (thr : ℚ) : Decidable (dist_lt p q thr) := by
  unfold dist_lt
  infer_instance

/-- The ratio `min(size_a, size_b) / max(size_a, size_b)`, or `none` when the divisor is
zero, where Python float division raises `ZeroDivisionError`. -/
def size_similarity (size_a size_b : ℚ) : Option ℚ :=
  if max size_a size_b = 0 then none else some (min size_a size_b / max size_a size_b)

/-- Python `_get_master_id`: follow the merge chain to its end. The Python `while` loop
is unbounded; `fuel` bounds the recursion here, and a fuel of `m.length + 1` is
proved sufficient for every mapping the resolver builds (see
`get_master_id_lookup_none`). -/
def get_master_id : ℕ → ℤ → List (ℤ × ℤ) → ℤ
  | 0, track_id, _ => track_id
  | fuel + 1, track_id, m =>
    match m.lookup track_id with
    | none => track_id
    | some next => get_master_id fuel next m

/-- The body of the pair loop of `_find_merge_candidates` for one pair
`(track_id_a, track_id_b)`: decide mergeability, and on a merge insert
`slave → resolve(master)`; the size-ratio computation can raise
`ZeroDivisionError`. -/
def merge_pair_step (cfg : StitchCfg) (m : List (ℤ × ℤ)) (track_id_a : ℤ) (seg_a : Segment)
    (track_id_b : ℤ) (seg_b : Segment) : Except String (List (ℤ × ℤ)) :=
  if seg_a.end_frame < seg_b.start_frame then
    if seg_b.start_frame - seg_a.end_frame ≤ cfg.max_frame_gap then
      match size_similarity (get_bbox_size seg_a.end_bbox) (get_bbox_size seg_b.start_bbox) with
      | none => .error "ZeroDivisionError"
      | some size_ratio =>
        if dist_lt seg_a.end_position seg_b.start_position cfg.position_threshold ∧
            size_ratio > cfg.size_similarity_threshold then
          .ok (dictInsert m track_id_b (get_master_id (m.length + 1) track_id_a m))
        else .ok m
    else .ok m
  else if seg_b.end_frame < seg_a.start_frame then
    if seg_a.start_frame - seg_b.end_frame ≤ cfg.max_frame_gap then
      match size_similarity (get_bbox_size seg_a.start_bbox) (get_bbox_size seg_b.end_bbox) with
      | none => .error "ZeroDivisionError"
      | some size_ratio =>
        if dist_lt seg_b.end_position seg_a.start_position cfg.position_threshold ∧
            size_ratio > cfg.size_similarity_threshold then
          .ok (dictInsert m track_id_a (get_master_id (m.length + 1) track_id_b m))
        else .ok m
    else .ok m
  else .ok m

/-- Insertion into a `≤`-sorted list of ids. -/
def insertSorted (x : ℤ) : List ℤ → List ℤ
  | [] => [x]
  | y :: ys => if x ≤ y then x :: y :: ys else y :: insertSorted x ys

/-- Python `sorted(segments.keys())`. -/
def sortIds (l : List ℤ) : List ℤ := l.foldr insertSorted []

/-- The pairs `(track_ids[i], track_ids[j])` with `i < j`, in the order of the
two nested loops of `_find_merge_candidates`. -/
def allPairs : List ℤ → List (ℤ × ℤ)
  | [] => []
  | a :: rest => rest.map (fun b => (a, b)) ++ allPairs rest

/-- Segment lookup by id; the resolver only looks up ids drawn from the keys. -/
def segLookup (segs : List (ℤ × Segment)) (track_id : ℤ) : Segment :=
  (segs.lookup track_id).getD default

/-- The pair loop of `_find_merge_candidates`, threading the merge map. -/
def run_pairs (cfg : StitchCfg) (segOf : ℤ → Segment) :
    List (ℤ × ℤ) → List (ℤ × ℤ) → Except String (List (ℤ × ℤ))
  | [], m => .ok m
  | p :: rest, m =>
    match merge_pair_step cfg m p.1 (segOf p.1) p.2 (segOf p.2) with
    | .error e => .error e
    | .ok m2 => run_pairs cfg segOf rest m2

/-- The successive merge maps during the pair loop: the state before the first
pair, then the state after each evaluated pair (cut short by a raised error). -/
def trace_pairs (cfg : StitchCfg) (segOf : ℤ → Segment) :
    List (ℤ × ℤ) → List (ℤ × ℤ) → List (List (ℤ × ℤ))
  | [], m => [m]
  | p :: rest, m =>
    m :: (match merge_pair_step cfg m p.1 (segOf p.1) p.2 (segOf p.2) with
      | .error _ => []
      | .ok m2 => trace_pairs cfg segOf rest m2)

/-- Python `_find_merge_candidates` on extracted segments. -/
def find_merge_candidates (cfg : StitchCfg) (segs : List (ℤ × Segment)) :
    Except String (List (ℤ × ℤ)) :=
  run_pairs cfg (segLookup segs) (allPairs (sortIds (segs.map Prod.fst))) []

/-- The intermediate merge maps of `_find_merge_candidates`. -/
def merge_map_trace (cfg : StitchCfg) (segs : List (ℤ × Segment)) : List (List (ℤ × ℤ)) :=
  trace_pairs cfg (segLookup segs) (allPairs (sortIds (segs.map Prod.fst))) []

/-- The in-place update `_apply_id_mapping` performs on one Track Record dict:
rewrite `track_id` through the expanded map and set the `stitched` key. -/
def remapTrack (expanded_map : List (ℤ × ℤ)) (t : TrackRec) : TrackRec :=
  match expanded_map.lookup t.track_id with
  | some new_id => { t with track_id := new_id, stitched := some true }
  | none => { t with stitched := some false }

/-- The `expanded_map` computed at the top of `_apply_id_mapping`: each key of
the merge map resolved to its terminal master. -/
def expand_merge_map (merge_map : List (ℤ × ℤ)) : List (ℤ × ℤ) :=
  merge_map.map (fun kv => (kv.1, get_master_id (merge_map.length + 1) kv.1 merge_map))

/-- Python `_apply_id_mapping`: expand the merge map by transitive closure, then walk
the frames rewriting every referenced Track Record in place (the store models
the shared mutable dicts) while rebuilding each frame dict around the same
track references. -/
def apply_id_mapping (store : List TrackRec) (results : List FrameRef)
    (merge_map : List (ℤ × ℤ)) : List TrackRec × List FrameRef :=
  let expanded_map : List (ℤ × ℤ) := expand_merge_map merge_map
  results.foldl
    (fun acc fd =>
      let store2 := fd.tracks.foldl
        (fun st i => st.set i (remapTrack expanded_map (st.getD i default))) acc.1
      (store2, acc.2 ++ [⟨fd.frame, fd.tracks⟩]))
    (store, [])

/-- The segments `stitch_tracks` hands to `_find_merge_candidates`. -/
def track_segments_of (frames : List Frame) : List (ℤ × Segment) :=
  (build_track_segments frames).map (fun kv => (kv.1, kv.2.extract))

/-- Python `stitch_tracks`: build segments from the (dereferenced) results, resolve
merge candidates, and apply the id mapping to the shared store. -/
def stitch_tracks (cfg : StitchCfg) (store : List TrackRec) (results : List FrameRef) :
    Except String (List TrackRec × List FrameRef) :=
  let frames := results.map (derefFrame store)
  let track_segments := track_segments_of frames
  match find_merge_candidates cfg track_segments with
  | .error e => .error e
  | .ok merge_map => .ok (apply_id_mapping store results merge_map)

/-- The record returned by `get_statistics`. -/
structure MergeStatistics where
  original_unique_ids : ℕ
  stitched_unique_ids : ℕ
  ids_merged : ℤ
  reduction_percentage : ℚ
deriving DecidableEq, Repr

/-- The nested `count_unique_ids` helper of `get_statistics`. -/
def count_unique_ids (results : List Frame) : ℕ :=
  ((results.foldl (fun acc fd => fd.tracks.foldl (fun acc t => acc ++ [t.track_id]) acc)
    []).dedup).length

/-- Python `get_statistics`: the division computing `reduction_percentage` raises
`ZeroDivisionError` when there are zero original unique ids. -/
def get_statistics (original_results stitched_results : List Frame) :
    Except String MergeStatistics :=
  let original_count := count_unique_ids original_results
  let stitched_count := count_unique_ids stitched_results
  if original_count = 0 then .error "ZeroDivisionError"
  else
    .ok
      { original_unique_ids := original_count
        stitched_unique_ids := stitched_count
        ids_merged := (original_count : ℤ) - (stitched_count : ℤ)
        reduction_percentage :=
          ((original_count : ℚ) - (stitched_count : ℚ)) / (original_count : ℚ) * 100 }

/-- C1: for a pair of distinct track ids whose segments are temporally ordered
(the earlier segment's `end_frame` strictly before the later one's
`start_frame`), the pair evaluation of `_find_merge_candidates` records the
later track as a slave of (the resolved master of) the earlier track exactly
when the frame gap is at most `max_frame_gap` (inclusive), the Euclidean
distance between the earlier end-position and the later start-position is
strictly below `position_threshold`, and the bbox area ratio
`min(areaA, areaB) / max(areaA, areaB)` is strictly above
`size_similarity_threshold`; otherwise it leaves the merge map unchanged, and
a pair with neither segment's end preceding the other's start is never merged.
Bounding boxes are assumed to have positive area, as the data model requires
(`x2 > x1`, `y2 > y1`). -/
theorem merge_pair_rule (cfg : StitchCfg) (m : List (ℤ × ℤ))
    (track_id_a track_id_b : ℤ) (seg_a seg_b : Segment)
    (ha1 : 0 < get_bbox_size seg_a.start_bbox) (ha2 : 0 < get_bbox_size seg_a.end_bbox)
    (hb1 : 0 < get_bbox_size seg_b.start_bbox) (hb2 : 0 < get_bbox_size seg_b.end_bbox) :
    (seg_a.end_frame < seg_b.start_frame →
      merge_pair_step cfg m track_id_a seg_a track_id_b seg_b =
        .ok (if seg_b.start_frame - seg_a.end_frame ≤ cfg.max_frame_gap ∧
              dist_lt seg_a.end_position seg_b.start_position cfg.position_threshold ∧
              cfg.size_similarity_threshold <
                min (get_bbox_size seg_a.end_bbox) (get_bbox_size seg_b.start_bbox) /
                  max (get_bbox_size seg_a.end_bbox) (get_bbox_size seg_b.start_bbox)
            then dictInsert m track_id_b (get_master_id (m.length + 1) track_id_a m)
            else m)) ∧
    (¬ seg_a.end_frame < seg_b.start_frame → seg_b.end_frame < seg_a.start_frame →
      merge_pair_step cfg m track_id_a seg_a track_id_b seg_b =
        .ok (if seg_a.start_frame - seg_b.end_frame ≤ cfg.max_frame_gap ∧
              dist_lt seg_b.end_position seg_a.start_position cfg.position_threshold ∧
              cfg.size_similarity_threshold <
                min (get_bbox_size seg_a.start_bbox) (get_bbox_size seg_b.end_bbox) /
                  max (get_bbox_size seg_a.start_bbox) (get_bbox_size seg_b.end_bbox)
            then dictInsert m track_id_a (get_master_id (m.length + 1) track_id_b m)
            else m)) ∧
    (¬ seg_a.end_frame < seg_b.start_frame → ¬ seg_b.end_frame < seg_a.start_frame →
      merge_pair_step cfg m track_id_a seg_a track_id_b seg_b = .ok m) := by
  refine ⟨?_, ?_, ?_⟩
  · intro h1
    have hmax : max (get_bbox_size seg_a.end_bbox) (get_bbox_size seg_b.start_bbox) ≠ 0 :=
      ne_of_gt (lt_max_of_lt_left ha2)
    simp only [merge_pair_step, if_pos h1, size_similarity, if_neg hmax]
    by_cases hgap : seg_b.start_frame - seg_a.end_frame ≤ cfg.max_frame_gap
    · by_cases hcond : dist_lt seg_a.end_position seg_b.start_position cfg.position_threshold ∧
          min (get_bbox_size seg_a.end_bbox) (get_bbox_size seg_b.start_bbox) /
            max (get_bbox_size seg_a.end_bbox) (get_bbox_size seg_b.start_bbox) >
            cfg.size_similarity_threshold
      · rw [if_pos hgap, if_pos hcond, if_pos ⟨hgap, hcond.1, hcond.2⟩]
      · rw [if_pos hgap, if_neg hcond, if_neg (fun hh => hcond ⟨hh.2.1, hh.2.2⟩)]
    · rw [if_neg hgap, if_neg (fun hh => hgap hh.1)]
  · intro h1 h2
    have hmax : max (get_bbox_size seg_a.start_bbox) (get_bbox_size seg_b.end_bbox) ≠ 0 :=
      ne_of_gt (lt_max_of_lt_left ha1)
    simp only [merge_pair_step, if_neg h1, if_pos h2, size_similarity, if_neg hmax]
    by_cases hgap : seg_a.start_frame - seg_b.end_frame ≤ cfg.max_frame_gap
    · by_cases hcond : dist_lt seg_b.end_position seg_a.start_position cfg.position_threshold ∧
          min (get_bbox_size seg_a.start_bbox) (get_bbox_size seg_b.end_bbox) /
            max (get_bbox_size seg_a.start_bbox) (get_bbox_size seg_b.end_bbox) >
            cfg.size_similarity_threshold
      · rw [if_pos hgap, if_pos hcond, if_pos ⟨hgap, hcond.1, hcond.2⟩]
      · rw [if_pos hgap, if_neg hcond, if_neg (fun hh => hcond ⟨hh.2.1, hh.2.2⟩)]
    · rw [if_neg hgap, if_neg (fun hh => hgap hh.1)]
  · intro h1 h2
    simp only [merge_pair_step, if_neg h1, if_neg h2]

/-- The default stitcher configuration: `max_frame_gap = 30`,
`position_threshold = 150.0`, `size_similarity_threshold = 0.5`. -/
def cfg0 : StitchCfg := ⟨30, 150, 1/2⟩

/-- A segment spanning frames 1–10, ending at `(100, 100)` with bbox area 2000. -/
def segW1 : Segment := ⟨1, 10, ⟨50, 50⟩, ⟨100, 100⟩, ⟨0, 0, 40, 50⟩, ⟨0, 0, 40, 50⟩⟩

/-- A segment spanning frames 15–30, starting at `(110, 105)` with bbox area 1900. -/
def segW2 : Segment := ⟨15, 30, ⟨110, 105⟩, ⟨200, 200⟩, ⟨0, 0, 38, 50⟩, ⟨0, 0, 38, 50⟩⟩

/-- Witness for `merge_pair_rule` at the worked example of the specification:
gap 5, distance √125 < 150, ratio 0.95 > 0.5, so track 2 is recorded as a
slave of track 1. -/
theorem merge_pair_rule_witness :
    ((0 : ℚ) < get_bbox_size segW1.start_bbox ∧ (0 : ℚ) < get_bbox_size segW1.end_bbox ∧
      (0 : ℚ) < get_bbox_size segW2.start_bbox ∧ (0 : ℚ) < get_bbox_size segW2.end_bbox) ∧
    (segW1.end_frame < segW2.start_frame →
      merge_pair_step cfg0 [] 1 segW1 2 segW2 =
        .ok (if segW2.start_frame - segW1.end_frame ≤ cfg0.max_frame_gap ∧
              dist_lt segW1.end_position segW2.start_position cfg0.position_threshold ∧
              cfg0.size_similarity_threshold <
                min (get_bbox_size segW1.end_bbox) (get_bbox_size segW2.start_bbox) /
                  max (get_bbox_size segW1.end_bbox) (get_bbox_size segW2.start_bbox)
            then dictInsert [] 2 (get_master_id 1 1 [])
            else [])) :=
  ⟨⟨by decide, by decide, by decide, by decide⟩,
    (merge_pair_rule cfg0 [] 1 2 segW1 segW2 (by decide) (by decide) (by decide) (by decide)).1⟩

section ResolverInvariant

theorem lookup_mem {β : Type} (m : List (ℤ × β)) (k : ℤ) (v : β)
    (h : m.lookup k = some v) : (k, v) ∈ m := by
  induction m with
  | nil => simp [List.lookup] at h
  | cons hd tl ih =>
    obtain ⟨ka, va⟩ := hd
    by_cases hk : k = ka
    · subst hk
      simp [List.lookup] at h
      simp [h]
    · have hb : (k == ka) = false := beq_eq_false_iff_ne.mpr hk
      simp only [List.lookup, hb] at h
      exact List.mem_cons.mpr (Or.inr (ih h))

theorem lookup_of_mem_keys {β : Type} (m : List (ℤ × β)) (k : ℤ)
    (h : k ∈ m.map Prod.fst) : ∃ v, m.lookup k = some v := by
  induction m with
  | nil => simp at h
  | cons hd tl ih =>
    obtain ⟨ka, va⟩ := hd
    by_cases hk : k = ka
    · subst hk
      exact ⟨va, by simp [List.lookup]⟩
    · have hb : (k == ka) = false := beq_eq_false_iff_ne.mpr hk
      simp only [List.map, List.mem_cons] at h
      rcases h with h | h
      · exact absurd h hk
      · obtain ⟨v, hv⟩ := ih h
        exact ⟨v, by simp [List.lookup, hb, hv]⟩

theorem filter_length_le {α : Type} (p q : α → Bool) :
    ∀ l : List α, (∀ a ∈ l, p a = true → q a = true) →
      (l.filter p).length ≤ (l.filter q).length := by
  intro l
  induction l with
  | nil => intro _; simp
  | cons hd tl ih =>
    intro h
    have ih2 := ih fun a ha => h a (List.mem_cons.mpr (Or.inr ha))
    cases hp : p hd with
    | true =>
      have hq := h hd (List.mem_cons_self _ _) hp
      simp [List.filter_cons, hp, hq]
      omega
    | false =>
      cases hq : q hd with
      | true =>
        simp [List.filter_cons, hp, hq]
        omega
      | false =>
        simp [List.filter_cons, hp, hq]
        exact ih2

theorem filter_length_lt {α : Type} (p q : α → Bool) (x : α) (hqx : q x = true)
    (hpx : ¬ p x = true) :
    ∀ l : List α, (∀ a ∈ l, p a = true → q a = true) → x ∈ l →
      (l.filter p).length < (l.filter q).length := by
  intro l
  induction l with
  | nil => intro _ hx; simp at hx
  | cons hd tl ih =>
    intro h hx
    have hrest : ∀ a ∈ tl, p a = true → q a = true :=
      fun a ha => h a (List.mem_cons.mpr (Or.inr ha))
    rcases List.mem_cons.mp hx with rfl | hx2
    · have hle := filter_length_le p q tl hrest
      have hpf : p x = false := by
        cases hpc : p x with
        | true => exact absurd hpc hpx
        | false => rfl
      simp [List.filter_cons, hpf, hqx]
      omega
    · have ihlt := ih hrest hx2
      cases hp : p hd with
      | true =>
        have hq := h hd (List.mem_cons_self _ _) hp
        simp [List.filter_cons, hp, hq]
        omega
      | false =>
        cases hq : q hd with
        | true =>
          simp [List.filter_cons, hp, hq]
          omega
        | false =>
          simp [List.filter_cons, hp, hq]
          exact ihlt

theorem mem_insertSorted (x a : ℤ) (l : List ℤ) :
    a ∈ insertSorted x l ↔ a = x ∨ a ∈ l := by
  induction l with
  | nil => simp [insertSorted]
  | cons y ys ih =>
    by_cases hxy : x ≤ y
    · simp [insertSorted, hxy]
    · simp only [insertSorted, if_neg hxy, List.mem_cons, ih]
      tauto

theorem mem_sortIds (a : ℤ) (l : List ℤ) : a ∈ sortIds l ↔ a ∈ l := by
  induction l with
  | nil => simp [sortIds]
  | cons y ys ih =>
    simp only [sortIds, List.foldr] at ih ⊢
    rw [mem_insertSorted, ih, List.mem_cons]

theorem allPairs_mem (p : ℤ × ℤ) (l : List ℤ) (h : p ∈ allPairs l) :
    p.1 ∈ l ∧ p.2 ∈ l := by
  induction l with
  | nil => simp [allPairs] at h
  | cons a rest ih =>
    simp only [allPairs, List.mem_append, List.mem_map] at h
    rcases h with ⟨b, hb, hpb⟩ | h
    · subst hpb
      exact ⟨List.mem_cons_self _ _, List.mem_cons.mpr (Or.inr hb)⟩
    · have := ih h
      exact ⟨List.mem_cons.mpr (Or.inr this.1), List.mem_cons.mpr (Or.inr this.2)⟩

/-- The strict temporal order between segments: `a` ends before `b` starts. -/
def earlierSeg (segOf : ℤ → Segment) (a b : ℤ) : Prop :=
  (segOf a).end_frame < (segOf b).start_frame

/-- Well-formedness of resolver input: every listed id's segment satisfies
`start_frame ≤ end_frame`. -/
def wfSegs (segOf : ℤ → Segment) (ids : List ℤ) : Prop :=
  ∀ id ∈ ids, (segOf id).start_frame ≤ (segOf id).end_frame

/-- The invariant every merge map built by the resolver maintains: each edge
joins listed ids and its value's segment ends strictly before its key's
segment starts. -/
def mergeMapInv (segOf : ℤ → Segment) (ids : List ℤ) (m : List (ℤ × ℤ)) : Prop :=
  ∀ kv ∈ m, kv.1 ∈ ids ∧ kv.2 ∈ ids ∧ earlierSeg segOf kv.2 kv.1

theorem get_master_id_cases (segOf : ℤ → Segment) (ids : List ℤ) (m : List (ℤ × ℤ))
    (hinv : mergeMapInv segOf ids m) (hwf : wfSegs segOf ids) :
    ∀ fuel id, get_master_id fuel id m = id ∨
      (get_master_id fuel id m ∈ ids ∧ earlierSeg segOf (get_master_id fuel id m) id) := by
  intro fuel
  induction fuel with
  | zero => intro id; exact Or.inl rfl
  | succ n ih =>
    intro id
    cases hm : m.lookup id with
    | none => exact Or.inl (by simp only [get_master_id, hm])
    | some v =>
      simp only [get_master_id, hm]
      obtain ⟨hid, hv, hearl⟩ := hinv (id, v) (lookup_mem m id v hm)
      rcases ih v with hr | ⟨hrids, hrear⟩
      · rw [hr]
        exact Or.inr ⟨hv, hearl⟩
      · refine Or.inr ⟨hrids, ?_⟩
        have hwv := hwf v hv
        exact lt_trans (lt_of_lt_of_le hrear hwv) hearl

theorem merge_pair_step_shape (cfg : StitchCfg) (m : List (ℤ × ℤ)) (a b : ℤ)
    (sa sb : Segment) (m2 : List (ℤ × ℤ))
    (h : merge_pair_step cfg m a sa b sb = .ok m2) :
    m2 = m ∨
    (m2 = dictInsert m b (get_master_id (m.length + 1) a m) ∧ sa.end_frame < sb.start_frame) ∨
    (m2 = dictInsert m a (get_master_id (m.length + 1) b m) ∧ sb.end_frame < sa.start_frame) := by
  unfold merge_pair_step at h
  by_cases h1 : sa.end_frame < sb.start_frame
  · rw [if_pos h1] at h
    by_cases hgap : sb.start_frame - sa.end_frame ≤ cfg.max_frame_gap
    · rw [if_pos hgap] at h
      cases hss : size_similarity (get_bbox_size sa.end_bbox) (get_bbox_size sb.start_bbox) with
      | none =>
        simp only [hss] at h
        exact Except.noConfusion h
      | some r =>
        simp only [hss] at h
        by_cases hc : dist_lt sa.end_position sb.start_position cfg.position_threshold ∧
            r > cfg.size_similarity_threshold
        · rw [if_pos hc] at h
          simp only [Except.ok.injEq] at h
          exact Or.inr (Or.inl ⟨h.symm, h1⟩)
        · rw [if_neg hc] at h
          simp only [Except.ok.injEq] at h
          exact Or.inl h.symm
    · rw [if_neg hgap] at h
      simp only [Except.ok.injEq] at h
      exact Or.inl h.symm
  · rw [if_neg h1] at h
    by_cases h2 : sb.end_frame < sa.start_frame
    · rw [if_pos h2] at h
      by_cases hgap : sa.start_frame - sb.end_frame ≤ cfg.max_frame_gap
      · rw [if_pos hgap] at h
        cases hss : size_similarity (get_bbox_size sa.start_bbox) (get_bbox_size sb.end_bbox) with
        | none =>
          simp only [hss] at h
          exact Except.noConfusion h
        | some r =>
          simp only [hss] at h
          by_cases hc : dist_lt sb.end_position sa.start_position cfg.position_threshold ∧
              r > cfg.size_similarity_threshold
          · rw [if_pos hc] at h
            simp only [Except.ok.injEq] at h
            exact Or.inr (Or.inr ⟨h.symm, h2⟩)
          · rw [if_neg hc] at h
            simp only [Except.ok.injEq] at h
            exact Or.inl h.symm
      · rw [if_neg hgap] at h
        simp only [Except.ok.injEq] at h
        exact Or.inl h.symm
    · rw [if_neg h2] at h
      simp only [Except.ok.injEq] at h
      exact Or.inl h.symm

theorem merge_pair_step_inv (cfg : StitchCfg) (segOf : ℤ → Segment) (ids : List ℤ)
    (m m2 : List (ℤ × ℤ)) (a b : ℤ) (ha : a ∈ ids) (hb : b ∈ ids)
    (hwf : wfSegs segOf ids) (hinv : mergeMapInv segOf ids m)
    (hstep : merge_pair_step cfg m a (segOf a) b (segOf b) = .ok m2) :
    mergeMapInv segOf ids m2 := by
  rcases merge_pair_step_shape cfg m a b (segOf a) (segOf b) m2 hstep
    with hsh | ⟨hsh, hord⟩ | ⟨hsh, hord⟩
  · exact hsh ▸ hinv
  · subst hsh
    intro kv hkv
    rcases dictInsert_mem m b (get_master_id (m.length + 1) a m) kv hkv with rfl | hkv2
    · refine ⟨hb, ?_⟩
      rcases get_master_id_cases segOf ids m hinv hwf (m.length + 1) a with hr | ⟨hrids, hrear⟩
      · rw [hr]
        exact ⟨ha, hord⟩
      · refine ⟨hrids, ?_⟩
        have hwa := hwf a ha
        exact lt_of_le_of_lt (le_trans (le_of_lt hrear) hwa) hord
    · exact hinv kv hkv2
  · subst hsh
    intro kv hkv
    rcases dictInsert_mem m a (get_master_id (m.length + 1) b m) kv hkv with rfl | hkv2
    · refine ⟨ha, ?_⟩
      rcases get_master_id_cases segOf ids m hinv hwf (m.length + 1) b with hr | ⟨hrids, hrear⟩
      · rw [hr]
        exact ⟨hb, hord⟩
      · refine ⟨hrids, ?_⟩
        have hwb := hwf b hb
        exact lt_of_le_of_lt (le_trans (le_of_lt hrear) hwb) hord
    · exact hinv kv hkv2

theorem run_pairs_inv (cfg : StitchCfg) (segOf : ℤ → Segment) (ids : List ℤ)
    (hwf : wfSegs segOf ids) :
    ∀ ps m mf, (∀ p ∈ ps, (p : ℤ × ℤ).1 ∈ ids ∧ p.2 ∈ ids) → mergeMapInv segOf ids m →
      run_pairs cfg segOf ps m = .ok mf → mergeMapInv segOf ids mf := by
  intro ps
  induction ps with
  | nil =>
    intro m mf _ hm h
    simp only [run_pairs, Except.ok.injEq] at h
    exact h ▸ hm
  | cons p rest ih =>
    intro m mf hps hm h
    unfold run_pairs at h
    cases hstep : merge_pair_step cfg m p.1 (segOf p.1) p.2 (segOf p.2) with
    | error e =>
      simp only [hstep] at h
      exact Except.noConfusion h
    | ok m2 =>
      simp only [hstep] at h
      have hp := hps p (List.mem_cons_self _ _)
      exact ih m2 mf (fun q hq => hps q (List.mem_cons.mpr (Or.inr hq)))
        (merge_pair_step_inv cfg segOf ids m m2 p.1 p.2 hp.1 hp.2 hwf hm hstep) h

theorem trace_pairs_inv (cfg : StitchCfg) (segOf : ℤ → Segment) (ids : List ℤ)
    (hwf : wfSegs segOf ids) :
    ∀ ps m, (∀ p ∈ ps, (p : ℤ × ℤ).1 ∈ ids ∧ p.2 ∈ ids) → mergeMapInv segOf ids m →
      ∀ m2 ∈ trace_pairs cfg segOf ps m, mergeMapInv segOf ids m2 := by
  intro ps
  induction ps with
  | nil =>
    intro m _ hm m2 hm2
    simp only [trace_pairs, List.mem_singleton] at hm2
    exact hm2 ▸ hm
  | cons p rest ih =>
    intro m hps hm m2 hm2
    unfold trace_pairs at hm2
    cases hstep : merge_pair_step cfg m p.1 (segOf p.1) p.2 (segOf p.2) with
    | error e =>
      simp only [hstep, List.mem_cons, List.not_mem_nil, or_false] at hm2
      exact hm2 ▸ hm
    | ok mnext =>
      simp only [hstep, List.mem_cons] at hm2
      rcases hm2 with rfl | hm2
      · exact hm
      · have hp := hps p (List.mem_cons_self _ _)
        exact ih mnext (fun q hq => hps q (List.mem_cons.mpr (Or.inr hq)))
          (merge_pair_step_inv cfg segOf ids m mnext p.1 p.2 hp.1 hp.2 hwf hm hstep) m2 hm2

theorem get_master_id_not_key (segOf : ℤ → Segment) (ids : List ℤ) (m : List (ℤ × ℤ))
    (hinv : mergeMapInv segOf ids m) (hwf : wfSegs segOf ids) :
    ∀ fuel id,
      (m.filter (fun kv => decide ((segOf kv.1).end_frame ≤ (segOf id).end_frame))).length <
        fuel →
      m.lookup (get_master_id fuel id m) = none := by
  intro fuel
  induction fuel with
  | zero => intro id hlt; exact absurd hlt (Nat.not_lt_zero _)
  | succ n ih =>
    intro id hlt
    cases hm : m.lookup id with
    | none => simpa only [get_master_id, hm] using hm
    | some v =>
      simp only [get_master_id, hm]
      obtain ⟨hid, hv, hearl⟩ := hinv (id, v) (lookup_mem m id v hm)
      have hvlt : (segOf v).end_frame < (segOf id).end_frame :=
        lt_of_lt_of_le hearl (hwf id hid)
      have hstrict :
          (m.filter (fun kv => decide ((segOf kv.1).end_frame ≤ (segOf v).end_frame))).length <
          (m.filter (fun kv => decide ((segOf kv.1).end_frame ≤ (segOf id).end_frame))).length := by
        refine filter_length_lt _ _ (id, v) ?_ ?_ m ?_ (lookup_mem m id v hm)
        · exact decide_eq_true (le_refl _)
        · intro hcon
          exact absurd (of_decide_eq_true hcon) (not_le.mpr hvlt)
        · intro kv _ hkv
          have := of_decide_eq_true hkv
          exact decide_eq_true (le_trans this (le_of_lt hvlt))
      exact ih v (lt_of_lt_of_le hstrict (Nat.lt_succ_iff.mp hlt))

theorem get_master_id_of_lookup_none (m : List (ℤ × ℤ)) (id : ℤ)
    (h : m.lookup id = none) : ∀ fuel, get_master_id fuel id m = id := by
  intro fuel
  cases fuel with
  | zero => rfl
  | succ n => simp only [get_master_id, h]

end ResolverInvariant

/-- A segment spanning frames `a` to `b`, at the origin with a 10×10 bbox. -/
def segU (a b : ℤ) : Segment := ⟨a, b, ⟨0, 0⟩, ⟨0, 0⟩, ⟨0, 0, 10, 10⟩, ⟨0, 0, 10, 10⟩⟩

/-- Three single-frame tracks: id 1 on frame 1, id 2 on frame 2, id 3 on
frame 0, all at the same position with identical bboxes. -/
def segsC2 : List (ℤ × Segment) := [(1, segU 1 1), (2, segU 2 2), (3, segU 0 0)]

/-- C2 is false as stated: running `_find_merge_candidates` on `segsC2`
evaluates the pairs (1,2), (1,3), (2,3) in order, and right after the second
insertion the merge map is `[(2, 1), (1, 3)]` — the stored value `1` (of the
edge `2 → 1`) is itself a key, so not every value is a terminal master and the
mapping is not a forest of depth-1 chains at that point. -/
theorem merge_map_depth1_cex :
    merge_map_trace cfg0 segsC2 = [[], [(2, 1)], [(2, 1), (1, 3)], [(2, 3), (1, 3)]] ∧
    ∃ mm ∈ merge_map_trace cfg0 segsC2, ∃ kv ∈ mm, ∃ kv2 ∈ mm,
      (kv : ℤ × ℤ).2 = (kv2 : ℤ × ℤ).1 :=
  ⟨by decide, by decide⟩

/-- C2 amended: after every insertion, every edge of the merge map points
strictly back in time — the stored value's segment ends strictly before its
key's segment starts — so no value equals its key and the mapping stays
acyclic; but a stored value need not be a terminal master, i.e. intermediate
maps can contain chains of depth 2 (`merge_map_depth1_cex`). -/
theorem merge_map_edges_earlier (cfg : StitchCfg) (segs : List (ℤ × Segment))
    (hwf : ∀ kv ∈ segs, (kv : ℤ × Segment).2.start_frame ≤ kv.2.end_frame) :
    ∀ mm ∈ merge_map_trace cfg segs, ∀ kv ∈ mm,
      (segLookup segs (kv : ℤ × ℤ).2).end_frame < (segLookup segs kv.1).start_frame ∧
      kv.1 ≠ kv.2 := by
  have hwf2 : wfSegs (segLookup segs) (segs.map Prod.fst) := by
    intro id hid
    obtain ⟨v, hv⟩ := lookup_of_mem_keys segs id hid
    have hmem := lookup_mem segs id v hv
    have := hwf (id, v) hmem
    simpa [segLookup, hv] using this
  have hpairs : ∀ p ∈ allPairs (sortIds (segs.map Prod.fst)),
      (p : ℤ × ℤ).1 ∈ segs.map Prod.fst ∧ p.2 ∈ segs.map Prod.fst := by
    intro p hp
    have := allPairs_mem p _ hp
    exact ⟨(mem_sortIds _ _).mp this.1, (mem_sortIds _ _).mp this.2⟩
  intro mm hmm kv hkv
  simp only [merge_map_trace] at hmm
  have hinv := trace_pairs_inv cfg (segLookup segs) (segs.map Prod.fst) hwf2
    (allPairs (sortIds (segs.map Prod.fst))) [] hpairs (by intro kv h; simp at h) mm hmm
  obtain ⟨hk, hv, hearl⟩ := hinv kv hkv
  refine ⟨hearl, fun heq => ?_⟩
  rw [heq] at hearl
  exact absurd hearl (not_lt.mpr (hwf2 kv.2 (heq ▸ hk)))

/-- Witness for `merge_map_edges_earlier` at the concrete input of the
counterexample. -/
theorem merge_map_edges_earlier_witness :
    (∀ kv ∈ segsC2, (kv : ℤ × Segment).2.start_frame ≤ kv.2.end_frame) ∧
    (∀ mm ∈ merge_map_trace cfg0 segsC2, ∀ kv ∈ mm,
      (segLookup segsC2 (kv : ℤ × ℤ).2).end_frame < (segLookup segsC2 kv.1).start_frame ∧
      kv.1 ≠ kv.2) :=
  ⟨by decide, merge_map_edges_earlier cfg0 segsC2 (by decide)⟩

/-- C3: for every input sequence of Frame Records whose derived segments all
satisfy `start_frame ≤ end_frame`, the merge mapping the resolver produces is
acyclic (every edge's value is strictly temporally earlier than its key), no
track id maps to itself, and resolution is idempotent: `resolve(id)` is never
itself a key of the mapping, so resolving again returns it unchanged. -/
theorem merge_map_resolution (cfg : StitchCfg) (frames : List Frame) (m : List (ℤ × ℤ))
    (hwf : ∀ kv ∈ track_segments_of frames, (kv : ℤ × Segment).2.start_frame ≤ kv.2.end_frame)
    (hm : find_merge_candidates cfg (track_segments_of frames) = .ok m) :
    (∀ kv ∈ m, (kv : ℤ × ℤ).1 ≠ kv.2) ∧
    (∀ kv ∈ m, (segLookup (track_segments_of frames) (kv : ℤ × ℤ).2).end_frame <
      (segLookup (track_segments_of frames) kv.1).start_frame) ∧
    (∀ id : ℤ, m.lookup (get_master_id (m.length + 1) id m) = none) ∧
    (∀ id : ℤ, get_master_id (m.length + 1) (get_master_id (m.length + 1) id m) m =
      get_master_id (m.length + 1) id m) := by
  have hwf2 : wfSegs (segLookup (track_segments_of frames))
      ((track_segments_of frames).map Prod.fst) := by
    intro id hid
    obtain ⟨v, hv⟩ := lookup_of_mem_keys (track_segments_of frames) id hid
    have hmem := lookup_mem (track_segments_of frames) id v hv
    have := hwf (id, v) hmem
    simpa [segLookup, hv] using this
  have hpairs : ∀ p ∈ allPairs (sortIds ((track_segments_of frames).map Prod.fst)),
      (p : ℤ × ℤ).1 ∈ (track_segments_of frames).map Prod.fst ∧
      p.2 ∈ (track_segments_of frames).map Prod.fst := by
    intro p hp
    have := allPairs_mem p _ hp
    exact ⟨(mem_sortIds _ _).mp this.1, (mem_sortIds _ _).mp this.2⟩
  have hinv : mergeMapInv (segLookup (track_segments_of frames))
      ((track_segments_of frames).map Prod.fst) m := by
    refine run_pairs_inv cfg (segLookup (track_segments_of frames)) _ hwf2 _ [] m hpairs
      (by intro kv h; simp at h) ?_
    simpa [find_merge_candidates] using hm
  have hnone : ∀ id : ℤ, m.lookup (get_master_id (m.length + 1) id m) = none := by
    intro id
    refine get_master_id_not_key (segLookup (track_segments_of frames))
      ((track_segments_of frames).map Prod.fst) m hinv hwf2 (m.length + 1) id ?_
    exact Nat.lt_succ_of_le (List.length_filter_le _ m)
  refine ⟨?_, ?_, hnone, ?_⟩
  · intro kv hkv
    obtain ⟨hk, hv, hearl⟩ := hinv kv hkv
    intro heq
    rw [heq] at hearl
    exact absurd hearl (not_lt.mpr (hwf2 kv.2 (heq ▸ hk)))
  · intro kv hkv
    exact (hinv kv hkv).2.2
  · intro id
    exact get_master_id_of_lookup_none m _ (hnone id) (m.length + 1)

/-- Frames realising the specification's worked merge example: id 1 spans
frames 1–10 ending at (100, 100) with bbox area 2000; id 2 spans frames 15–30
starting at (110, 105) with bbox area 1900. -/
def framesW : List Frame :=
  [⟨1, [⟨1, ⟨50, 50⟩, ⟨0, 0, 40, 50⟩, none⟩]⟩,
   ⟨10, [⟨1, ⟨100, 100⟩, ⟨0, 0, 40, 50⟩, none⟩]⟩,
   ⟨15, [⟨2, ⟨110, 105⟩, ⟨0, 0, 38, 50⟩, none⟩]⟩,
   ⟨30, [⟨2, ⟨200, 200⟩, ⟨0, 0, 38, 50⟩, none⟩]⟩]

/-- Witness for `merge_map_resolution` on the worked example, whose resolver
output is the single-edge map `[(2, 1)]`. -/
theorem merge_map_resolution_witness :
    (∀ kv ∈ track_segments_of framesW, (kv : ℤ × Segment).2.start_frame ≤ kv.2.end_frame) ∧
    find_merge_candidates cfg0 (track_segments_of framesW) = .ok [(2, 1)] ∧
    ((∀ kv ∈ [((2 : ℤ), (1 : ℤ))], (kv : ℤ × ℤ).1 ≠ kv.2) ∧
     (∀ kv ∈ [((2 : ℤ), (1 : ℤ))],
       (segLookup (track_segments_of framesW) (kv : ℤ × ℤ).2).end_frame <
       (segLookup (track_segments_of framesW) kv.1).start_frame) ∧
     (∀ id : ℤ, List.lookup (get_master_id 2 id [((2 : ℤ), (1 : ℤ))]) [((2 : ℤ), (1 : ℤ))] =
       none) ∧
     (∀ id : ℤ, get_master_id 2 (get_master_id 2 id [((2 : ℤ), (1 : ℤ))]) [((2 : ℤ), (1 : ℤ))] =
       get_master_id 2 id [((2 : ℤ), (1 : ℤ))])) :=
  ⟨by decide, by decide,
    merge_map_resolution cfg0 framesW [(2, 1)] (by decide) (by decide)⟩

/-- Two temporally ordered segments (gap 1) whose bboxes all have zero area. -/
def segsZ : List (ℤ × Segment) :=
  [(1, ⟨1, 1, ⟨0, 0⟩, ⟨0, 0⟩, ⟨0, 0, 0, 5⟩, ⟨0, 0, 0, 5⟩⟩),
   (2, ⟨2, 2, ⟨0, 0⟩, ⟨0, 0⟩, ⟨0, 0, 0, 5⟩, ⟨0, 0, 0, 5⟩⟩)]

/-- A store and frame sequence realising `segsZ`: id 1 on frame 1, id 2 on
frame 2, both with the degenerate bbox `(0, 0, 0, 5)`. -/
def storeZ : List TrackRec :=
  [⟨1, ⟨0, 0⟩, ⟨0, 0, 0, 5⟩, none⟩, ⟨2, ⟨0, 0⟩, ⟨0, 0, 0, 5⟩, none⟩]

/-- Frame references for `storeZ`. -/
def resultsZ : List FrameRef := [⟨1, [0]⟩, ⟨2, [1]⟩]

/-- C6 names a guard the code does not have: on a temporally ordered candidate
pair whose compared bounding boxes both have zero area, the size-ratio
computation `min(0, 0) / max(0, 0)` raises `ZeroDivisionError`, so the pair is
not silently rejected and the stitching pass does not complete. -/
theorem zero_area_division_crash :
    find_merge_candidates cfg0 segsZ = .error "ZeroDivisionError" ∧
    stitch_tracks cfg0 storeZ resultsZ = .error "ZeroDivisionError" :=
  ⟨by decide, by decide⟩

/-- C7: on the empty input sequence stitching does produce the empty merge
mapping (and an empty stitched sequence), but `get_statistics` raises
`ZeroDivisionError` computing `(0 - 0) / 0 * 100` instead of returning
zero-valued statistics with a 0% reduction. -/
theorem empty_input_statistics_crash :
    find_merge_candidates cfg0 (track_segments_of []) = .ok [] ∧
    stitch_tracks cfg0 [] [] = .ok ([], []) ∧
    get_statistics [] [] = .error "ZeroDivisionError" :=
  ⟨by decide, by decide, by decide⟩

section SegmentBuilder

/-- The stream of (frame number, Track Record) observations, in the order the
nested loops of `_build_track_segments` visit them. -/
def obsList : List Frame → List (ℤ × TrackRec)
  | [] => []
  | fd :: rest => fd.tracks.map (fun t => (fd.frame, t)) ++ obsList rest

/-- The observations of one track id: its (frame, center, bbox) triples. -/
def obsOf (obs : List (ℤ × TrackRec)) (track_id : ℤ) : List (ℤ × Pos × BBox) :=
  obs.filterMap fun o =>
    if o.2.track_id = track_id then some (o.1, o.2.center, o.2.bbox) else none

/-- One observation applied to the segment dict. -/
def stepObs (segs : List (ℤ × RawSegment)) (o : ℤ × TrackRec) : List (ℤ × RawSegment) :=
  dictUpd initRawSegment (updateSeg o.1 o.2.center o.2.bbox) o.2.track_id segs

theorem build_eq_foldl_obs (results : List Frame) :
    build_track_segments results = (obsList results).foldl stepObs [] := by
  suffices h : ∀ (rs : List Frame) (init : List (ℤ × RawSegment)),
      rs.foldl
        (fun segs fd => fd.tracks.foldl
          (fun segs t =>
            dictUpd initRawSegment (updateSeg fd.frame t.center t.bbox) t.track_id segs)
          segs)
        init = (obsList rs).foldl stepObs init by
    exact h results []
  intro rs
  induction rs with
  | nil => intro init; rfl
  | cons fd rest ih =>
    intro init
    simp only [List.foldl_cons, obsList, List.foldl_append, ih]
    congr 1
    rw [List.foldl_map]
    rfl

theorem obsOf_append (obs : List (ℤ × TrackRec)) (o : ℤ × TrackRec) (id : ℤ) :
    obsOf (obs ++ [o]) id =
      obsOf obs id ++
        (if o.2.track_id = id then [(o.1, o.2.center, o.2.bbox)] else []) := by
  unfold obsOf
  rw [List.filterMap_append]
  congr 1
  by_cases h : o.2.track_id = id
  · simp [h]
  · simp [h]

theorem dictUpd_keys {β : Type} (dflt : β) (f : β → β) (k : ℤ) (m : List (ℤ × β)) :
    (dictUpd dflt f k m).map Prod.fst =
      if k ∈ m.map Prod.fst then m.map Prod.fst else m.map Prod.fst ++ [k] := by
  induction m with
  | nil => simp [dictUpd]
  | cons hd tl ih =>
    obtain ⟨ka, va⟩ := hd
    by_cases h : ka = k
    · subst h
      simp [dictUpd]
    · have hne : ¬ k = ka := fun hh => h hh.symm
      by_cases hk : k ∈ tl.map Prod.fst
      · simp [dictUpd, h, ih, hk, hne]
      · simp [dictUpd, h, ih, hk, hne]

theorem dictUpd_mem {β : Type} (dflt : β) (f : β → β) (k : ℤ) :
    ∀ m : List (ℤ × β), (m.map Prod.fst).Nodup → ∀ kv : ℤ × β, kv ∈ dictUpd dflt f k m →
      kv = (k, f ((m.lookup k).getD dflt)) ∨ (kv ∈ m ∧ kv.1 ≠ k) := by
  intro m
  induction m with
  | nil =>
    intro _ kv h
    simp only [dictUpd, List.mem_singleton] at h
    exact Or.inl (by simpa [List.lookup] using h)
  | cons hd tl ih =>
    intro hnd kv h
    obtain ⟨ka, va⟩ := hd
    simp only [List.map, List.nodup_cons] at hnd
    by_cases hk : ka = k
    · subst hk
      simp only [dictUpd, if_pos rfl] at h
      rcases List.mem_cons.mp h with rfl | h1
      · exact Or.inl (by simp [List.lookup])
      · refine Or.inr ⟨List.mem_cons.mpr (Or.inr h1), ?_⟩
        intro hkv
        exact hnd.1 (hkv ▸ List.mem_map_of_mem Prod.fst h1)
    · simp only [dictUpd, if_neg hk] at h
      rcases List.mem_cons.mp h with rfl | h1
      · exact Or.inr ⟨List.mem_cons_self _ _, fun hh => hk hh⟩
      · have hb : (k == ka) = false := beq_eq_false_iff_ne.mpr fun hh => hk hh.symm
        rcases ih hnd.2 kv h1 with h2 | h2
        · exact Or.inl (by simpa [List.lookup, hb] using h2)
        · exact Or.inr ⟨List.mem_cons.mpr (Or.inr h2.1), h2.2⟩

theorem updateSeg_cases (f : ℤ) (c : Pos) (b : BBox) (r : RawSegment) :
    updateSeg f c b r =
      (let r1 : RawSegment := { r with frames := r.frames ++ [f] }
       let r2 : RawSegment :=
         if (f : WithTop ℤ) < r.start_frame then
           { r1 with start_frame := (f : WithTop ℤ), start_position := some c,
                     start_bbox := some b }
         else r1
       if f > r.end_frame then
         { r2 with end_frame := f, end_position := some c, end_bbox := some b }
       else r2) := by
  by_cases h1 : (f : WithTop ℤ) < r.start_frame
  · by_cases h2 : f > r.end_frame
    · simp [updateSeg, h1, h2]
    · simp [updateSeg, h1, h2]
  · by_cases h2 : f > r.end_frame
    · simp [updateSeg, h1, h2]
    · simp [updateSeg, h1, h2]

/-- The invariant tying a built segment to the observation stream of its id:
every optional field is set, the start data is an actual observation with
minimal frame number, the end data an actual observation with maximal frame
number, `start_frame ≤ end_frame`, and the start and end data coincide when
the two frame numbers do. -/
def SegOK (obs : List (ℤ × TrackRec)) (track_id : ℤ) (r : RawSegment) : Prop :=
  ∃ (sf : ℤ) (sp : Pos) (sb : BBox) (ep : Pos) (eb : BBox),
    r.start_frame = (sf : WithTop ℤ) ∧
    r.start_position = some sp ∧ r.start_bbox = some sb ∧
    r.end_position = some ep ∧ r.end_bbox = some eb ∧
    (sf, sp, sb) ∈ obsOf obs track_id ∧
    (r.end_frame, ep, eb) ∈ obsOf obs track_id ∧
    sf ≤ r.end_frame ∧
    (∀ x ∈ obsOf obs track_id, sf ≤ (x : ℤ × Pos × BBox).1 ∧ x.1 ≤ r.end_frame) ∧
    (sf = r.end_frame → sp = ep ∧ sb = eb)

theorem SegOK_step (obs : List (ℤ × TrackRec)) (o : ℤ × TrackRec) (k : ℤ)
    (hk : o.2.track_id = k) (r : RawSegment) (hok : SegOK obs k r) :
    SegOK (obs ++ [o]) k (updateSeg o.1 o.2.center o.2.bbox r) := by
  obtain ⟨sf, sp, sb, ep, eb, h1, h2, h3, h4, h5, hm1, hm2, hle, hbnd, hdeg⟩ := hok
  have hobs : obsOf (obs ++ [o]) k = obsOf obs k ++ [(o.1, o.2.center, o.2.bbox)] := by
    rw [obsOf_append]
    simp [hk]
  rw [updateSeg_cases]
  simp only
  by_cases hA : o.1 < sf
  · have hA2 : ((o.1 : ℤ) : WithTop ℤ) < r.start_frame := by
      rw [h1]
      exact_mod_cast hA
    have hB : ¬ o.1 > r.end_frame := not_lt.mpr (le_of_lt (lt_of_lt_of_le hA hle))
    rw [if_pos hA2, if_neg hB]
    refine ⟨o.1, o.2.center, o.2.bbox, ep, eb, rfl, rfl, rfl, h4, h5, ?_, ?_, ?_, ?_, ?_⟩
    · rw [hobs]
      exact List.mem_append_right _ (List.mem_singleton.mpr rfl)
    · rw [hobs]
      exact List.mem_append_left _ hm2
    · exact le_of_lt (lt_of_lt_of_le hA hle)
    · intro x hx
      rw [hobs] at hx
      rcases List.mem_append.mp hx with hx | hx
      · exact ⟨le_of_lt (lt_of_lt_of_le hA (hbnd x hx).1), (hbnd x hx).2⟩
      · rw [List.mem_singleton.mp hx]
        exact ⟨le_refl _, not_lt.mp hB⟩
    · intro heq
      exact absurd (lt_of_lt_of_le hA hle) (by rw [heq]; exact lt_irrefl _)
  · have hA2 : ¬ ((o.1 : ℤ) : WithTop ℤ) < r.start_frame := by
      rw [h1]
      exact_mod_cast hA
    rw [if_neg hA2]
    by_cases hB : o.1 > r.end_frame
    · rw [if_pos hB]
      refine ⟨sf, sp, sb, o.2.center, o.2.bbox, h1, h2, h3, rfl, rfl, ?_, ?_, ?_, ?_, ?_⟩
      · rw [hobs]
        exact List.mem_append_left _ hm1
      · rw [hobs]
        exact List.mem_append_right _ (List.mem_singleton.mpr rfl)
      · exact not_lt.mp hA
      · intro x hx
        rw [hobs] at hx
        rcases List.mem_append.mp hx with hx | hx
        · exact ⟨(hbnd x hx).1, le_of_lt (lt_of_le_of_lt (hbnd x hx).2 hB)⟩
        · rw [List.mem_singleton.mp hx]
          exact ⟨not_lt.mp hA, le_refl _⟩
      · intro heq
        exact absurd (lt_of_le_of_lt hle hB) (by rw [heq]; exact lt_irrefl _)
    · rw [if_neg hB]
      refine ⟨sf, sp, sb, ep, eb, h1, h2, h3, h4, h5, ?_, ?_, hle, ?_, hdeg⟩
      · rw [hobs]
        exact List.mem_append_left _ hm1
      · rw [hobs]
        exact List.mem_append_left _ hm2
      · intro x hx
        rw [hobs] at hx
        rcases List.mem_append.mp hx with hx | hx
        · exact hbnd x hx
        · rw [List.mem_singleton.mp hx]
          exact ⟨not_lt.mp hA, not_lt.mp hB⟩

theorem SegOK_fresh (obs : List (ℤ × TrackRec)) (o : ℤ × TrackRec) (k : ℤ)
    (hk : o.2.track_id = k) (hf : 1 ≤ o.1) (hempty : obsOf obs k = []) :
    SegOK (obs ++ [o]) k (updateSeg o.1 o.2.center o.2.bbox initRawSegment) := by
  have hobs : obsOf (obs ++ [o]) k = [(o.1, o.2.center, o.2.bbox)] := by
    rw [obsOf_append]
    simp [hk, hempty]
  rw [updateSeg_cases]
  simp only
  have hA : ((o.1 : ℤ) : WithTop ℤ) < initRawSegment.start_frame := by
    simp [initRawSegment]
  have hB : o.1 > initRawSegment.end_frame := by
    simp only [initRawSegment]
    omega
  rw [if_pos hA, if_pos hB]
  refine ⟨o.1, o.2.center, o.2.bbox, o.2.center, o.2.bbox, rfl, rfl, rfl, rfl, rfl,
    ?_, ?_, le_refl _, ?_, fun _ => ⟨rfl, rfl⟩⟩
  · rw [hobs]
    exact List.mem_singleton.mpr rfl
  · rw [hobs]
    exact List.mem_singleton.mpr rfl
  · intro x hx
    rw [hobs] at hx
    rw [List.mem_singleton.mp hx]
    exact ⟨le_refl _, le_refl _⟩

/-- The invariant carried over the whole segment dict: distinct keys, a key
for exactly the observed ids, and `SegOK` for every entry. -/
def MapOK (obs : List (ℤ × TrackRec)) (segs : List (ℤ × RawSegment)) : Prop :=
  ((segs.map Prod.fst).Nodup) ∧
  (∀ id : ℤ, (segs.lookup id).isSome ↔ obsOf obs id ≠ []) ∧
  (∀ kv ∈ segs, SegOK obs (kv : ℤ × RawSegment).1 kv.2)

theorem MapOK_nil : MapOK [] [] := by
  refine ⟨List.nodup_nil, ?_, ?_⟩
  · intro id
    simp [List.lookup, obsOf]
  · intro kv h
    simp at h

theorem stepObs_MapOK (obs : List (ℤ × TrackRec)) (segs : List (ℤ × RawSegment))
    (o : ℤ × TrackRec) (hf : 1 ≤ o.1) (hok : MapOK obs segs) :
    MapOK (obs ++ [o]) (stepObs segs o) := by
  obtain ⟨hnd, hiff, hseg⟩ := hok
  refine ⟨?_, ?_, ?_⟩
  · rw [stepObs, dictUpd_keys]
    split
    · exact hnd
    · rename_i hnot
      rw [List.nodup_append]
      exact ⟨hnd, List.nodup_singleton _, by simpa using hnot⟩
  · intro id
    by_cases hid : id = o.2.track_id
    · subst hid
      rw [stepObs, dictUpd_lookup_self, obsOf_append]
      simp
    · rw [stepObs, dictUpd_lookup_other _ _ _ _ _ hid, obsOf_append]
      have : ¬ o.2.track_id = id := fun hh => hid hh.symm
      simp only [this, if_false, List.append_nil]
      exact hiff id
  · intro kv hkv
    rcases dictUpd_mem initRawSegment (updateSeg o.1 o.2.center o.2.bbox) o.2.track_id segs
        hnd kv hkv with rfl | ⟨hmem, hne⟩
    · simp only
      cases hl : segs.lookup o.2.track_id with
      | some r =>
        have hmem2 := lookup_mem segs _ r hl
        have hsr := hseg (o.2.track_id, r) hmem2
        simpa using SegOK_step obs o o.2.track_id rfl r hsr
      | none =>
        have hempty : obsOf obs o.2.track_id = [] := by
          by_contra hne2
          have := (hiff o.2.track_id).mpr hne2
          rw [hl] at this
          simp at this
        simpa using SegOK_fresh obs o o.2.track_id rfl hf hempty
    · have hobs : obsOf (obs ++ [o]) kv.1 = obsOf obs kv.1 := by
        rw [obsOf_append]
        have : ¬ o.2.track_id = kv.1 := fun hh => hne hh.symm
        simp [this]
      have hsv := hseg kv hmem
      unfold SegOK at hsv ⊢
      rw [hobs]
      exact hsv

theorem foldl_MapOK :
    ∀ (rest obs : List (ℤ × TrackRec)) (segs : List (ℤ × RawSegment)),
      (∀ o ∈ rest, 1 ≤ (o : ℤ × TrackRec).1) → MapOK obs segs →
      MapOK (obs ++ rest) (rest.foldl stepObs segs) := by
  intro rest
  induction rest with
  | nil =>
    intro obs segs _ hok
    simpa using hok
  | cons o rest ih =>
    intro obs segs hfr hok
    have h1 := stepObs_MapOK obs segs o (hfr o (List.mem_cons_self _ _)) hok
    have h2 := ih (obs ++ [o]) (stepObs segs o)
      (fun q hq => hfr q (List.mem_cons.mpr (Or.inr hq))) h1
    simp only [List.foldl_cons]
    rw [show obs ++ o :: rest = (obs ++ [o]) ++ rest by simp]
    exact h2

theorem obsList_frames :
    ∀ results : List Frame, (∀ fd ∈ results, 1 ≤ (fd : Frame).frame) →
      ∀ o ∈ obsList results, 1 ≤ (o : ℤ × TrackRec).1 := by
  intro results
  induction results with
  | nil =>
    intro _ o h
    simp [obsList] at h
  | cons fd rest ih =>
    intro hf o h
    simp only [obsList, List.mem_append, List.mem_map] at h
    rcases h with ⟨t, _, rfl⟩ | h
    · exact hf fd (List.mem_cons_self _ _)
    · exact ih (fun q hq => hf q (List.mem_cons.mpr (Or.inr hq))) o h

theorem build_MapOK (results : List Frame)
    (hf : ∀ fd ∈ results, 1 ≤ (fd : Frame).frame) :
    MapOK (obsList results) (build_track_segments results) := by
  rw [build_eq_foldl_obs]
  have := foldl_MapOK (obsList results) [] [] (obsList_frames results hf) MapOK_nil
  simpa using this

/-- C9: for every input sequence whose frame numbers are all ≥ 1, the Track
Segment Builder produces exactly one segment per distinct observed track id
(its keys are distinct, and an id has a segment iff it was observed), every
segment satisfies `SegOK` — all fields set, `start_frame ≤ end_frame`, start
and end data drawn from actual observed Track Records of that id and bounding
all its observed frame numbers — and an id all of whose observations lie in a
single frame gets `start_frame = end_frame` with equal start/end position and
bbox. -/
theorem segment_builder_ok (results : List Frame)
    (hf : ∀ fd ∈ results, 1 ≤ (fd : Frame).frame) :
    ((build_track_segments results).map Prod.fst).Nodup ∧
    (∀ id : ℤ, ((build_track_segments results).lookup id).isSome ↔
      obsOf (obsList results) id ≠ []) ∧
    (∀ kv ∈ build_track_segments results,
      SegOK (obsList results) (kv : ℤ × RawSegment).1 kv.2) ∧
    (∀ kv ∈ build_track_segments results, ∀ f0 : ℤ,
      (∀ x ∈ obsOf (obsList results) (kv : ℤ × RawSegment).1, (x : ℤ × Pos × BBox).1 = f0) →
      kv.2.start_frame = (f0 : WithTop ℤ) ∧ kv.2.end_frame = f0 ∧
      kv.2.start_position = kv.2.end_position ∧ kv.2.start_bbox = kv.2.end_bbox) := by
  obtain ⟨hnd, hiff, hseg⟩ := build_MapOK results hf
  refine ⟨hnd, hiff, hseg, ?_⟩
  intro kv hkv f0 hall
  obtain ⟨sf, sp, sb, ep, eb, h1, h2, h3, h4, h5, hm1, hm2, hle, hbnd, hdeg⟩ := hseg kv hkv
  have hsf : sf = f0 := hall _ hm1
  have hef : kv.2.end_frame = f0 := hall _ hm2
  have hse : sf = kv.2.end_frame := by rw [hsf, hef]
  obtain ⟨hsp, hsb⟩ := hdeg hse
  refine ⟨by rw [h1, hsf], hef, ?_, ?_⟩
  · rw [h2, h4, hsp]
  · rw [h3, h5, hsb]

/-- Witness for `segment_builder_ok` on the concrete four-frame sequence
`framesW` (two ids, two observations each). -/
theorem segment_builder_ok_witness :
    (∀ fd ∈ framesW, 1 ≤ (fd : Frame).frame) ∧
    (((build_track_segments framesW).map Prod.fst).Nodup ∧
     (∀ id : ℤ, ((build_track_segments framesW).lookup id).isSome ↔
       obsOf (obsList framesW) id ≠ []) ∧
     (∀ kv ∈ build_track_segments framesW,
       SegOK (obsList framesW) (kv : ℤ × RawSegment).1 kv.2) ∧
     (∀ kv ∈ build_track_segments framesW, ∀ f0 : ℤ,
       (∀ x ∈ obsOf (obsList framesW) (kv : ℤ × RawSegment).1, (x : ℤ × Pos × BBox).1 = f0) →
       kv.2.start_frame = (f0 : WithTop ℤ) ∧ kv.2.end_frame = f0 ∧
       kv.2.start_position = kv.2.end_position ∧ kv.2.start_bbox = kv.2.end_bbox)) :=
  ⟨by decide, segment_builder_ok framesW (by decide)⟩

/-- For inputs obeying the data model (frame numbers ≥ 1), the extracted
segments handed to the resolver all satisfy `start_frame ≤ end_frame`, so the
hypothesis of `merge_map_resolution` holds for every such input. -/
theorem track_segments_of_wf (results : List Frame)
    (hf : ∀ fd ∈ results, 1 ≤ (fd : Frame).frame) :
    ∀ kv ∈ track_segments_of results, (kv : ℤ × Segment).2.start_frame ≤ kv.2.end_frame := by
  intro kv hkv
  obtain ⟨⟨id, r⟩, hmem, heq⟩ := List.mem_map.mp hkv
  obtain ⟨_, _, hseg⟩ := build_MapOK results hf
  obtain ⟨sf, sp, sb, ep, eb, h1, _, _, _, _, _, _, hle, _, _⟩ := hseg (id, r) hmem
  rw [← heq]
  have h1b : r.start_frame = (sf : WithTop ℤ) := h1
  simp only [RawSegment.extract, h1b]
  rw [WithTop.untop'_coe]
  exact hle

end SegmentBuilder

section IdRemapper

/-- All store indices referenced by a frame sequence, in visiting order. -/
def allTrackRefs : List FrameRef → List ℕ
  | [] => []
  | fr :: rest => fr.tracks ++ allTrackRefs rest

theorem apply_fold (em : List (ℤ × ℤ)) :
    ∀ (results : List FrameRef) (store : List TrackRec) (acc : List FrameRef),
      results.foldl
        (fun a fd =>
          (fd.tracks.foldl (fun st i => st.set i (remapTrack em (st.getD i default))) a.1,
           a.2 ++ [⟨fd.frame, fd.tracks⟩]))
        (store, acc) =
      ((allTrackRefs results).foldl
        (fun st i => st.set i (remapTrack em (st.getD i default))) store,
       acc ++ results) := by
  intro results
  induction results with
  | nil =>
    intro store acc
    simp [allTrackRefs]
  | cons fd rest ih =>
    intro store acc
    simp only [List.foldl_cons, allTrackRefs, List.foldl_append, ih]
    congr 1
    simp

theorem apply_id_mapping_eq (store : List TrackRec) (results : List FrameRef)
    (mm : List (ℤ × ℤ)) :
    apply_id_mapping store results mm =
      ((allTrackRefs results).foldl
        (fun st i => st.set i (remapTrack (expand_merge_map mm) (st.getD i default))) store,
       results) := by
  unfold apply_id_mapping
  simp only
  rw [apply_fold]
  simp

theorem foldl_set_untouched (em : List (ℤ × ℤ)) :
    ∀ (refs : List ℕ) (store : List TrackRec) (j : ℕ), j ∉ refs →
      ((refs.foldl (fun st i => st.set i (remapTrack em (st.getD i default))) store).getD j
          default) =
        store.getD j default := by
  intro refs
  induction refs with
  | nil => intro store j _; rfl
  | cons i0 rest ih =>
    intro store j hj
    have hji : j ≠ i0 := fun hh => hj (hh ▸ List.mem_cons_self _ _)
    have hjr : j ∉ rest := fun hh => hj (List.mem_cons.mpr (Or.inr hh))
    simp only [List.foldl_cons]
    rw [ih _ j hjr]
    simp only [List.getD_eq_getElem?_getD]
    rw [List.getElem?_set_ne (fun hh => hji hh.symm)]

theorem foldl_set_length (em : List (ℤ × ℤ)) :
    ∀ (refs : List ℕ) (store : List TrackRec),
      (refs.foldl (fun st i => st.set i (remapTrack em (st.getD i default))) store).length =
        store.length := by
  intro refs
  induction refs with
  | nil => intro store; rfl
  | cons i0 rest ih =>
    intro store
    simp only [List.foldl_cons]
    rw [ih]
    simp

theorem foldl_set_remap (em : List (ℤ × ℤ)) :
    ∀ (refs : List ℕ) (store : List TrackRec), refs.Nodup →
      (∀ i ∈ refs, i < store.length) →
      ∀ i ∈ refs,
        ((refs.foldl (fun st i => st.set i (remapTrack em (st.getD i default))) store).getD i
            default) =
          remapTrack em (store.getD i default) := by
  intro refs
  induction refs with
  | nil => intro store _ _ i hi; simp at hi
  | cons i0 rest ih =>
    intro store hnd hvalid i hi
    have hnd2 := List.nodup_cons.mp hnd
    simp only [List.foldl_cons]
    rcases List.mem_cons.mp hi with rfl | hi2
    · rw [foldl_set_untouched em rest _ i hnd2.1]
      have hlt : i < store.length := hvalid i (List.mem_cons_self _ _)
      simp only [List.getD_eq_getElem?_getD]
      rw [List.getElem?_set_self hlt]
      rfl
    · have hii0 : i ≠ i0 := fun hh => hnd2.1 (hh ▸ hi2)
      have := ih (store.set i0 (remapTrack em (store.getD i0 default))) hnd2.2
        (fun q hq => by
          rw [List.length_set]
          exact hvalid q (List.mem_cons.mpr (Or.inr hq)))
        i hi2
      rw [this]
      congr 1
      simp only [List.getD_eq_getElem?_getD]
      rw [List.getElem?_set_ne (fun hh => hii0 hh.symm)]

/-- The input store of the worked merge example. -/
def storeW : List TrackRec :=
  [⟨1, ⟨50, 50⟩, ⟨0, 0, 40, 50⟩, none⟩, ⟨1, ⟨100, 100⟩, ⟨0, 0, 40, 50⟩, none⟩,
   ⟨2, ⟨110, 105⟩, ⟨0, 0, 38, 50⟩, none⟩, ⟨2, ⟨200, 200⟩, ⟨0, 0, 38, 50⟩, none⟩]

/-- The caller's frame sequence over `storeW`: one Track Record per frame. -/
def refsW : List FrameRef := [⟨1, [0]⟩, ⟨10, [1]⟩, ⟨15, [2]⟩, ⟨30, [3]⟩]

/-- The store after the stitching pass: the two records of track 2 have been
rewritten in place to track 1. -/
def storeW2 : List TrackRec :=
  [⟨1, ⟨50, 50⟩, ⟨0, 0, 40, 50⟩, some false⟩, ⟨1, ⟨100, 100⟩, ⟨0, 0, 40, 50⟩, some false⟩,
   ⟨1, ⟨110, 105⟩, ⟨0, 0, 38, 50⟩, some true⟩, ⟨1, ⟨200, 200⟩, ⟨0, 0, 38, 50⟩, some true⟩]

/-- C8 is false as stated: `stitch_tracks` rewrites the `track_id` field of the
caller's own Track Records. On the worked example the record at store index 2
had `track_id = 2` before the call and `track_id = 1` after it, so reading the
caller's original sequence through the heap after the call no longer gives the
records passed in. -/
theorem stitch_mutates_caller_cex :
    stitch_tracks cfg0 storeW refsW = .ok (storeW2, refsW) ∧
    refsW.map (derefFrame storeW2) ≠ refsW.map (derefFrame storeW) ∧
    (storeW2.getD 2 default).track_id = 1 ∧ (storeW.getD 2 default).track_id = 2 :=
  ⟨by decide, by decide, by decide, by decide⟩

/-- C8 amended: `stitch_tracks` does return a new list of Frame Records, but
they are built around the same shared Track Records, which it mutates in
place: when the references are distinct and valid, every referenced record of
the caller's sequence is rewritten through the expanded merge map (resolved
master id and `stitched` flag), so after the call the caller's original
sequence shows exactly the stitched ids; unreferenced store entries are
untouched. -/
theorem stitch_tracks_mutates_in_place (cfg : StitchCfg) (store store2 : List TrackRec)
    (results results2 : List FrameRef)
    (h : stitch_tracks cfg store results = .ok (store2, results2))
    (hnd : (allTrackRefs results).Nodup)
    (hvalid : ∀ i ∈ allTrackRefs results, i < store.length) :
    results2 = results ∧
    ∃ mm, find_merge_candidates cfg (track_segments_of (results.map (derefFrame store))) =
        .ok mm ∧
      (∀ i ∈ allTrackRefs results,
        store2.getD i default = remapTrack (expand_merge_map mm) (store.getD i default)) ∧
      (∀ i : ℕ, i ∉ allTrackRefs results → store2.getD i default = store.getD i default) := by
  have h2 : (match find_merge_candidates cfg
        (track_segments_of (results.map (derefFrame store))) with
      | Except.error e => Except.error e
      | Except.ok merge_map => Except.ok (apply_id_mapping store results merge_map)) =
      Except.ok (store2, results2) := h
  clear h
  cases hmm : find_merge_candidates cfg
      (track_segments_of (results.map (derefFrame store))) with
  | error e =>
    rw [hmm] at h2
    exact Except.noConfusion h2
  | ok mm =>
    rw [hmm] at h2
    simp only [Except.ok.injEq] at h2
    rename' h2 => h
    rw [apply_id_mapping_eq] at h
    obtain ⟨hstore, hres⟩ := Prod.mk.injEq _ _ _ _ ▸ h.symm
    refine ⟨hres.symm ▸ rfl, mm, rfl, ?_, ?_⟩
    · intro i hi
      rw [hstore]
      exact foldl_set_remap (expand_merge_map mm) (allTrackRefs results) store hnd hvalid i hi
    · intro i hi
      rw [hstore]
      exact foldl_set_untouched (expand_merge_map mm) (allTrackRefs results) store i hi

/-- Witness for `stitch_tracks_mutates_in_place` on the worked example. -/
theorem stitch_tracks_mutates_in_place_witness :
    stitch_tracks cfg0 storeW refsW = .ok (storeW2, refsW) ∧
    (allTrackRefs refsW).Nodup ∧
    (∀ i ∈ allTrackRefs refsW, i < storeW.length) ∧
    (refsW = refsW ∧
      ∃ mm, find_merge_candidates cfg0 (track_segments_of (refsW.map (derefFrame storeW))) =
          .ok mm ∧
        (∀ i ∈ allTrackRefs refsW,
          storeW2.getD i default = remapTrack (expand_merge_map mm) (storeW.getD i default)) ∧
        (∀ i : ℕ, i ∉ allTrackRefs refsW → storeW2.getD i default = storeW.getD i default)) :=
  ⟨by decide, by decide, by decide,
    stitch_tracks_mutates_in_place cfg0 storeW storeW2 refsW refsW (by decide) (by decide)
      (by decide)⟩

end IdRemapper

section Debounce

/-- C4: per-track debounce of `process_frame`. Given that track `t` last
crossed at frame `F` (its cooldown anchor): (a) at any frame closer than
`min_frames_between_crossings` to `F` the track is only appended to the
history and no event is produced, whatever the geometry; (b) at frame
`F + min_frames_between_crossings` or later, if the (post-append) history has
at least two samples and the segment from the previous position to the current
one geometrically crosses the line, exactly one event is appended for this
track, and the cooldown anchor moves to the current frame. -/
theorem counter_debounce (cfg : CounterCfg) (st : CounterState) (fe : List CEvent)
    (t : CTrack) (frame_num F : ℤ)
    (hlast : st.last_crossing_frame.lookup t.track_id = some F) :
    (frame_num - F < cfg.min_frames_between →
      process_track cfg frame_num st fe t =
        ({ st with track_history :=
            (dictUpd [] (fun h => dequeAppend cfg.history_length h (frame_num, t.center))
              t.track_id st.track_history) }, fe)) ∧
    (cfg.min_frames_between ≤ frame_num - F →
      ∀ h2 : List (ℤ × Pos),
        (dictUpd [] (fun h => dequeAppend cfg.history_length h (frame_num, t.center))
            t.track_id st.track_history).lookup t.track_id = some h2 →
        2 ≤ h2.length →
        segments_intersect (h2.getD (h2.length - 2) (0, default)).2 t.center
          cfg.line_start cfg.line_end = true →
        ∃ ev : CEvent, (process_track cfg frame_num st fe t).2 = fe ++ [ev] ∧
          ev.frame = frame_num ∧ ev.track_id = t.track_id ∧
          (process_track cfg frame_num st fe t).1.last_crossing_frame.lookup t.track_id =
            some frame_num) := by
  constructor
  · intro hcool
    unfold process_track
    simp only [hlast]
    by_cases hlen :
        (((dictUpd [] (fun h => dequeAppend cfg.history_length h (frame_num, t.center))
          t.track_id st.track_history).lookup t.track_id).getD []).length < 2
    · rw [if_pos hlen]
    · rw [if_neg hlen, if_pos (by exact decide_eq_true hcool)]
  · intro hge h2 hh2 hlen2 hint
    unfold process_track
    simp only [hlast, hh2, Option.getD_some]
    have hlen : ¬ h2.length < 2 := not_lt.mpr hlen2
    rw [if_neg hlen]
    have hcool : decide (frame_num - F < cfg.min_frames_between) = false :=
      decide_eq_false (not_lt.mpr hge)
    rw [if_neg (by rw [hcool]; exact Bool.false_ne_true)]
    unfold check_line_crossing
    rw [if_pos hint]
    refine ⟨⟨frame_num, t.track_id,
      get_crossing_direction cfg (h2.getD (h2.length - 2) (0, default)).2 t.center, t.center,
      _, _⟩, rfl, rfl, rfl, ?_⟩
    simp only
    exact dictInsert_lookup_self _ _ _

/-- The default counter configuration on the vertical line (0,0)–(0,100). -/
def cfgC : CounterCfg := ⟨⟨0, 0⟩, ⟨0, 100⟩, 30, 10⟩

/-- A counter state in which track 5 last crossed at frame 2 and has one
history sample. -/
def stC4 : CounterState := ⟨[(5, [(2, ⟨10, 50⟩)])], [(5, 2)], 0, 1, []⟩

/-- Track 5 observed at (−10, 50). -/
def tC4 : CTrack := ⟨5, ⟨-10, 50⟩⟩

/-- Witness for `counter_debounce`: track 5, last crossing at frame 2,
re-evaluated at frame 32 = 2 + 30. -/
theorem counter_debounce_witness :
    stC4.last_crossing_frame.lookup tC4.track_id = some 2 ∧
    ((32 - 2 < cfgC.min_frames_between →
      process_track cfgC 32 stC4 [] tC4 =
        ({ stC4 with track_history :=
            (dictUpd [] (fun h => dequeAppend cfgC.history_length h (32, tC4.center))
              tC4.track_id stC4.track_history) }, [])) ∧
    (cfgC.min_frames_between ≤ 32 - 2 →
      ∀ h2 : List (ℤ × Pos),
        (dictUpd [] (fun h => dequeAppend cfgC.history_length h (32, tC4.center))
            tC4.track_id stC4.track_history).lookup tC4.track_id = some h2 →
        2 ≤ h2.length →
        segments_intersect (h2.getD (h2.length - 2) (0, default)).2 tC4.center
          cfgC.line_start cfgC.line_end = true →
        ∃ ev : CEvent, (process_track cfgC 32 stC4 [] tC4).2 = [] ++ [ev] ∧
          ev.frame = 32 ∧ ev.track_id = tC4.track_id ∧
          (process_track cfgC 32 stC4 [] tC4).1.last_crossing_frame.lookup tC4.track_id =
            some 32)) :=
  ⟨by decide, counter_debounce cfgC stC4 [] tC4 32 2 (by decide)⟩

end Debounce

section CounterTotals

/-- The number of events of one direction in an event log. -/
def countDir (d : Direction) (evs : List CEvent) : ℕ :=
  (evs.filter (fun e => e.direction = d)).length

theorem countDir_append_single (d : Direction) (l : List CEvent) (e : CEvent) :
    countDir d (l ++ [e]) = countDir d l + (if e.direction = d then 1 else 0) := by
  unfold countDir
  rw [List.filter_append]
  by_cases h : e.direction = d
  · simp [h]
  · simp [h]

theorem countDir_total (l : List CEvent) :
    countDir Direction.IN l + countDir Direction.OUT l = l.length := by
  induction l with
  | nil => rfl
  | cons e rest ih =>
    unfold countDir at ih ⊢
    cases hd : e.direction
    · simp [List.filter_cons, hd]
      omega
    · simp [List.filter_cons, hd]
      omega

theorem countDir_take_mono (d : Direction) (l : List CEvent) (i j : ℕ) (hij : i ≤ j) :
    countDir d (l.take i) ≤ countDir d (l.take j) := by
  have h1 : l.take i = (l.take j).take i := by
    rw [List.take_take, min_eq_left hij]
  rw [h1]
  exact List.Sublist.length_le (List.Sublist.filter _ (List.take_sublist _ _))

/-- The running-totals invariant of the counter state: the counters equal the
direction counts of the event log, and each logged event carries the direction
counts of the log up to and including itself. -/
def CounterInv (st : CounterState) : Prop :=
  st.count_in = countDir Direction.IN st.events ∧
  st.count_out = countDir Direction.OUT st.events ∧
  ∀ i : ℕ, i < st.events.length →
    (st.events.getD i default).count_in = countDir Direction.IN (st.events.take (i + 1)) ∧
    (st.events.getD i default).count_out = countDir Direction.OUT (st.events.take (i + 1))

theorem counterInv_init : CounterInv initCounter := by
  refine ⟨rfl, rfl, ?_⟩
  intro i hi
  simp [initCounter] at hi

theorem process_track_inv (cfg : CounterCfg) (frame_num : ℤ) (st : CounterState)
    (fe : List CEvent) (t : CTrack) (h : CounterInv st) :
    CounterInv (process_track cfg frame_num st fe t).1 := by
  unfold process_track
  simp only
  by_cases hlen :
      (((dictUpd [] (fun h => dequeAppend cfg.history_length h (frame_num, t.center))
        t.track_id st.track_history).lookup t.track_id).getD []).length < 2
  · rw [if_pos hlen]
    exact h
  · rw [if_neg hlen]
    by_cases hcool : (match st.last_crossing_frame.lookup t.track_id with
      | some last => decide (frame_num - last < cfg.min_frames_between)
      | none => false) = true
    · rw [if_pos hcool]
      exact h
    · rw [if_neg hcool]
      cases hcl : check_line_crossing cfg
          ((((dictUpd [] (fun h => dequeAppend cfg.history_length h (frame_num, t.center))
            t.track_id st.track_history).lookup t.track_id).getD []).getD
            ((((dictUpd [] (fun h => dequeAppend cfg.history_length h (frame_num, t.center))
              t.track_id st.track_history).lookup t.track_id).getD []).length - 2)
            (0, default)).2 t.center with
      | none =>
        exact h
      | some dir =>
        simp only
        obtain ⟨hin, hout, hev⟩ := h
        constructor
        · rw [countDir_append_single]
          cases dir
          · simp [hin]
          · simp [hin]
        constructor
        · rw [countDir_append_single]
          cases dir
          · simp [hout]
          · simp [hout]
        · intro i hi
          rw [List.length_append, List.length_singleton] at hi
          by_cases hilt : i < st.events.length
          · have hgd : (st.events ++
                [({ frame := frame_num, track_id := t.track_id, direction := dir,
                    position := t.center,
                    count_in := if dir = Direction.IN then st.count_in + 1 else st.count_in,
                    count_out :=
                      if dir = Direction.OUT then st.count_out + 1 else st.count_out } :
                  CEvent)]).getD i default = st.events.getD i default := by
              simp only [List.getD_eq_getElem?_getD]
              rw [List.getElem?_append_left hilt]
            have htk : (st.events ++
                [({ frame := frame_num, track_id := t.track_id, direction := dir,
                    position := t.center,
                    count_in := if dir = Direction.IN then st.count_in + 1 else st.count_in,
                    count_out :=
                      if dir = Direction.OUT then st.count_out + 1 else st.count_out } :
                  CEvent)]).take (i + 1) = st.events.take (i + 1) := by
              rw [List.take_append_of_le_length hilt]
            rw [hgd, htk]
            exact hev i hilt
          · have hieq : i = st.events.length := by omega
            subst hieq
            have hgd : (st.events ++
                [({ frame := frame_num, track_id := t.track_id, direction := dir,
                    position := t.center,
                    count_in := if dir = Direction.IN then st.count_in + 1 else st.count_in,
                    count_out :=
                      if dir = Direction.OUT then st.count_out + 1 else st.count_out } :
                  CEvent)]).getD st.events.length default =
                ({ frame := frame_num, track_id := t.track_id, direction := dir,
                    position := t.center,
                    count_in := if dir = Direction.IN then st.count_in + 1 else st.count_in,
                    count_out :=
                      if dir = Direction.OUT then st.count_out + 1 else st.count_out } :
                  CEvent) := by
              simp only [List.getD_eq_getElem?_getD]
              rw [List.getElem?_append_right (le_refl _)]
              simp
            have htk : (st.events ++
                [({ frame := frame_num, track_id := t.track_id, direction := dir,
                    position := t.center,
                    count_in := if dir = Direction.IN then st.count_in + 1 else st.count_in,
                    count_out :=
                      if dir = Direction.OUT then st.count_out + 1 else st.count_out } :
                  CEvent)]).take (st.events.length + 1) = st.events ++
                [({ frame := frame_num, track_id := t.track_id, direction := dir,
                    position := t.center,
                    count_in := if dir = Direction.IN then st.count_in + 1 else st.count_in,
                    count_out :=
                      if dir = Direction.OUT then st.count_out + 1 else st.count_out } :
                  CEvent)] := by
              apply List.take_of_length_le
              simp
            rw [hgd, htk]
            constructor
            · rw [countDir_append_single]
              cases dir
              · simp [hin]
              · simp [hin]
            · rw [countDir_append_single]
              cases dir
              · simp [hout]
              · simp [hout]

theorem process_frame_inv (cfg : CounterCfg) (st : CounterState) (frame_num : ℤ)
    (tracks : List CTrack) (h : CounterInv st) :
    CounterInv (process_frame cfg st frame_num tracks).1 := by
  unfold process_frame
  suffices hgen : ∀ (ts : List CTrack) (acc : CounterState × List CEvent), CounterInv acc.1 →
      CounterInv (ts.foldl (fun acc t => process_track cfg frame_num acc.1 acc.2 t) acc).1 by
    exact hgen tracks (st, []) h
  intro ts
  induction ts with
  | nil => intro acc hacc; exact hacc
  | cons t rest ih =>
    intro acc hacc
    simp only [List.foldl_cons]
    exact ih _ (process_track_inv cfg frame_num acc.1 acc.2 t hacc)

theorem run_frames_inv (cfg : CounterCfg) :
    ∀ (inputs : List (ℤ × List CTrack)) (st : CounterState), CounterInv st →
      CounterInv (run_frames cfg st inputs) := by
  intro inputs
  induction inputs with
  | nil => intro st h; exact h
  | cons p rest ih =>
    intro st h
    exact ih _ (process_frame_inv cfg st p.1 p.2 h)

/-- C10: after any sequence of `process_frame` calls on a fresh counter,
`count_in + count_out` equals the length of the event log (so `get_summary`
reports `total_in + total_out = total_crossings`), every logged event carries
the running totals as they stand right after its own counter increment (their
sum at position `i` is `i + 1`), and the totals stored along the event log are
non-decreasing. -/
theorem counter_totals (cfg : CounterCfg) (inputs : List (ℤ × List CTrack))
    (st : CounterState) (hst : st = run_frames cfg initCounter inputs) :
    st.count_in + st.count_out = st.events.length ∧
    (get_summary st).total_in + (get_summary st).total_out =
      (get_summary st).total_crossings ∧
    (∀ i : ℕ, i < st.events.length →
      (st.events.getD i default).count_in + (st.events.getD i default).count_out = i + 1) ∧
    (∀ i j : ℕ, i ≤ j → j < st.events.length →
      (st.events.getD i default).count_in ≤ (st.events.getD j default).count_in ∧
      (st.events.getD i default).count_out ≤ (st.events.getD j default).count_out) := by
  have hinv : CounterInv st := hst ▸ run_frames_inv cfg inputs initCounter counterInv_init
  obtain ⟨hin, hout, hev⟩ := hinv
  have htot : st.count_in + st.count_out = st.events.length := by
    rw [hin, hout, countDir_total]
  refine ⟨htot, ?_, ?_, ?_⟩
  · simpa [get_summary] using htot
  · intro i hi
    obtain ⟨h1, h2⟩ := hev i hi
    rw [h1, h2, countDir_total, List.length_take]
    omega
  · intro i j hij hj
    have hi : i < st.events.length := lt_of_le_of_lt hij hj
    obtain ⟨hi1, hi2⟩ := hev i hi
    obtain ⟨hj1, hj2⟩ := hev j hj
    rw [hi1, hi2, hj1, hj2]
    exact ⟨countDir_take_mono _ _ _ _ (by omega), countDir_take_mono _ _ _ _ (by omega)⟩

/-- Four single-track frames driving the counter across the line three times,
the middle crossing inside the cooldown window. -/
def inputsW : List (ℤ × List CTrack) :=
  [(1, [⟨5, ⟨-10, 50⟩⟩]), (2, [⟨5, ⟨10, 50⟩⟩]), (3, [⟨5, ⟨-10, 50⟩⟩]), (32, [⟨5, ⟨10, 50⟩⟩])]

/-- Witness for `counter_totals` on a run producing two events. -/
theorem counter_totals_witness :
    run_frames cfgC initCounter inputsW = run_frames cfgC initCounter inputsW ∧
    ((run_frames cfgC initCounter inputsW).count_in +
        (run_frames cfgC initCounter inputsW).count_out =
      (run_frames cfgC initCounter inputsW).events.length ∧
    (get_summary (run_frames cfgC initCounter inputsW)).total_in +
        (get_summary (run_frames cfgC initCounter inputsW)).total_out =
      (get_summary (run_frames cfgC initCounter inputsW)).total_crossings ∧
    (∀ i : ℕ, i < (run_frames cfgC initCounter inputsW).events.length →
      ((run_frames cfgC initCounter inputsW).events.getD i default).count_in +
        ((run_frames cfgC initCounter inputsW).events.getD i default).count_out = i + 1) ∧
    (∀ i j : ℕ, i ≤ j → j < (run_frames cfgC initCounter inputsW).events.length →
      ((run_frames cfgC initCounter inputsW).events.getD i default).count_in ≤
        ((run_frames cfgC initCounter inputsW).events.getD j default).count_in ∧
      ((run_frames cfgC initCounter inputsW).events.getD i default).count_out ≤
        ((run_frames cfgC initCounter inputsW).events.getD j default).count_out)) :=
  ⟨rfl, counter_totals cfgC inputsW (run_frames cfgC initCounter inputsW) rfl⟩

end CounterTotals

end PeopleCounting
